import Mathlib

/-!
Verification development for the yeehaa-scraper crawler
(src/yeehaa_scraper-iframe-metcim.py).

Python strings are modelled as `List Char` (`Str`).  Pure helper
functions of the source (`sanitize_filename`, `extract_last_updated_date`,
`extract_anchor_content`) are translated directly; the stateful crawl
(`_scrape_site` / `scrape_sites` / `navigate` / `authenticate`) is
modelled as a fuel-indexed state-transformer over an explicit crawl
state, with the rendering browser, the plain HTTP fetch, the markdown
converter and `dateutil.parser.parse` supplied as oracle functions in
the configuration (they are external collaborators in the code).
-/

abbrev Str := List Char

/-- Python `needle in haystack` on strings: substring containment. -/
def beginsWith : Str → Str → Bool
  | _, [] => true
  | [], _ :: _ => false
  | c :: s, p :: ps => c = p && beginsWith s ps

/-- Python `pat in s` (substring test, `pat` nonempty use-sites). -/
def containsSub (s pat : Str) : Bool :=
  match s with
  | [] => beginsWith [] pat
  | _ :: t => beginsWith s pat || containsSub t pat

/-! ## Sanitizer (`sanitize_filename`, source lines 40-71) -/

/-- The disallowed character set of the source:
`'<>:"/\\|?*!#%&{}$\'`=@+ '` (including the space character). -/
def invalid_chars : Str :=
  ['<', '>', ':', '"', '/', '\\', '|', '?', '*', '!', '#', '%', '&',
   '\x7b', '\x7d', '$', '\x27', '\x60', '=', '@', '+', ' ']

/-- One step of the loop `filename = filename.replace(char, '_')`. -/
def pyReplaceChar (s : Str) (c : Char) : Str :=
  s.map (fun x => if x = c then '_' else x)

/-- `for char in invalid_chars: filename = filename.replace(char, '_')`. -/
def replaceInvalid (s : Str) : Str :=
  invalid_chars.foldl pyReplaceChar s

/-- The characters stripped by `filename.strip('_. ')`. -/
def stripSet : Str := ['_', '.', ' ']

/-- Python `str.rstrip(set)`: drop trailing characters that are in `set`. -/
def rstripBy (set : Str) : Str → Str
  | [] => []
  | c :: rest =>
      let r := rstripBy set rest
      if r = [] ∧ c ∈ set then [] else c :: r

/-- Python `str.strip(set)`: left strip then right strip. -/
def pyStrip (set : Str) (s : Str) : Str :=
  rstripBy set (s.dropWhile (fun c => decide (c ∈ set)))

/-- One pass of `filename.replace('__', '_')`: scan left to right and
contract each non-overlapping occurrence of two underscores into one. -/
def collapseStep : Str → Str
  | [] => []
  | [c] => [c]
  | c1 :: c2 :: rest =>
      if c1 = '_' ∧ c2 = '_' then '_' :: collapseStep rest
      else c1 :: collapseStep (c2 :: rest)

/-- `'__' in filename`: some adjacent pair of underscores exists. -/
def hasDD : Str → Bool
  | c1 :: c2 :: rest => (c1 = '_' && c2 = '_') || hasDD (c2 :: rest)
  | _ => false

/-- The loop `while '__' in filename: filename = filename.replace('__','_')`,
run on bounded fuel.  Each iteration strictly shortens the string, so fuel
`s.length` always suffices (see `hasDD_collapseU`). -/
def collapseLoop : Nat → Str → Str
  | 0, s => s
  | n + 1, s => if hasDD s then collapseLoop n (collapseStep s) else s

def collapseU (s : Str) : Str := collapseLoop s.length s

/-- Stages 1-4 of `sanitize_filename`: replace disallowed characters by
`_`, drop ASCII control characters (`ord < 32`), strip `'_. '`, collapse
runs of underscores. -/
def sanStage (x : Str) : Str :=
  collapseU (pyStrip stripSet ((replaceInvalid x).filter (fun c => 32 ≤ c.toNat)))

/-- Stage 5: `if not filename: filename = 'unnamed'`. -/
def sanNamed (x : Str) : Str :=
  if sanStage x = [] then "unnamed".toList else sanStage x

/-- `sanitize_filename` translated from the source (lines 40-71); the
sequential reassignments of the Python function are the composed stages
`sanStage`/`sanNamed`, followed by
`if len(filename) > 200: filename = filename[:200].rstrip('_')`. -/
def sanitize_filename (x : Str) : Str :=
  if 200 < (sanNamed x).length then rstripBy ['_'] ((sanNamed x).take 200)
  else sanNamed x

/-! ### Helper lemmas about the sanitizer's building blocks -/

theorem memOfGetLast? : ∀ {l : List Char} {c : Char}, l.getLast? = some c → c ∈ l
  | [a], c, h => by simp [List.getLast?] at h; simp [h]
  | a :: b :: t, c, h => by
      have := @memOfGetLast? (b :: t) c
        (by simpa [List.getLast?_cons_cons] using h)
      exact List.mem_cons_of_mem _ this

theorem getLast?_cons_of_ne_nil {a : Char} {l : List Char} (h : l ≠ []) :
    (a :: l).getLast? = l.getLast? := by
  cases l with
  | nil => exact absurd rfl h
  | cons b t => exact List.getLast?_cons_cons

theorem head?_append_of_ne_nil {l t : List Char} (h : l ≠ []) :
    (l ++ t).head? = l.head? := by
  cases l with
  | nil => exact absurd rfl h
  | cons c r => rfl

theorem mem_pyReplaceChar {s : Str} {a c : Char} (h : c ∈ pyReplaceChar s a) :
    c = '_' ∨ (c ∈ s ∧ c ≠ a) := by
  rcases List.mem_map.mp h with ⟨x, hx, hsx⟩
  by_cases hxa : x = a
  · left; rw [← hsx, if_pos hxa]
  · right
    rw [← hsx, if_neg hxa]
    exact ⟨hx, hxa⟩

theorem pyReplaceChar_id : ∀ (s : Str) (a : Char), (∀ c ∈ s, c ≠ a) → pyReplaceChar s a = s
  | [], _, _ => rfl
  | c :: t, a, h => by
      have h1 : c ≠ a := h c (by simp)
      have h2 := pyReplaceChar_id t a (fun d hd => h d (by simp [hd]))
      simp only [pyReplaceChar, List.map_cons, if_neg h1]
      simpa [pyReplaceChar] using h2

theorem mem_replace_foldl : ∀ (l : List Char) (s : Str) (c : Char),
    c ∈ List.foldl pyReplaceChar s l → c = '_' ∨ (c ∈ s ∧ c ∉ l)
  | [], s, c, h => .inr ⟨h, by simp⟩
  | a :: t, s, c, h => by
      rcases mem_replace_foldl t (pyReplaceChar s a) c h with h1 | ⟨h2, h3⟩
      · exact .inl h1
      · rcases mem_pyReplaceChar h2 with h4 | ⟨h5, h6⟩
        · exact .inl h4
        · exact .inr ⟨h5, by simp [h6, h3]⟩

theorem replace_foldl_id : ∀ (l : List Char) (s : Str),
    (∀ c ∈ s, c ∉ l) → List.foldl pyReplaceChar s l = s
  | [], _, _ => rfl
  | a :: t, s, h => by
      have hs : pyReplaceChar s a = s :=
        pyReplaceChar_id s a (fun c hc => fun hca => h c hc (by simp [hca]))
      rw [List.foldl_cons, hs]
      exact replace_foldl_id t s (fun c hc hct => h c hc (List.mem_cons_of_mem _ hct))

theorem collapseStep_cons2 (c1 c2 : Char) (rest : Str) :
    collapseStep (c1 :: c2 :: rest) =
      if c1 = '_' ∧ c2 = '_' then '_' :: collapseStep rest
      else c1 :: collapseStep (c2 :: rest) := rfl

theorem hasDD_cons2 (c1 c2 : Char) (rest : Str) :
    hasDD (c1 :: c2 :: rest) = ((c1 = '_' && c2 = '_') || hasDD (c2 :: rest)) := rfl

theorem hasDD_cons2_cases {c1 c2 : Char} {rest : Str} (h : hasDD (c1 :: c2 :: rest) = true) :
    (c1 = '_' ∧ c2 = '_') ∨ hasDD (c2 :: rest) = true := by
  rw [hasDD_cons2] at h
  rcases Bool.or_eq_true_iff.mp h with h' | h'
  · obtain ⟨ha, hb⟩ := Bool.and_eq_true_iff.mp h'
    exact .inl ⟨by simpa using ha, by simpa using hb⟩
  · exact .inr h'

theorem collapseStep_sublist : ∀ s : Str, List.Sublist (collapseStep s) s
  | [] => by simp [collapseStep]
  | [c] => by simp [collapseStep]
  | c1 :: c2 :: rest => by
      by_cases h : c1 = '_' ∧ c2 = '_'
      · obtain ⟨h1, h2⟩ := h
        subst h1; subst h2
        simp only [collapseStep, if_pos (And.intro rfl rfl)]
        exact List.Sublist.cons₂ _ (List.Sublist.cons _ (collapseStep_sublist rest))
      · simp only [collapseStep, if_neg h]
        exact List.Sublist.cons₂ _ (collapseStep_sublist (c2 :: rest))

theorem collapseStep_length_le (s : Str) : (collapseStep s).length ≤ s.length :=
  List.Sublist.length_le (collapseStep_sublist s)

theorem collapseStep_length_lt : ∀ s : Str, hasDD s = true → (collapseStep s).length < s.length
  | [], h => by simp [hasDD] at h
  | [c], h => by simp [hasDD] at h
  | c1 :: c2 :: rest, h => by
      by_cases hc : c1 = '_' ∧ c2 = '_'
      · simp only [collapseStep, if_pos hc, List.length_cons]
        have := collapseStep_length_le rest
        omega
      · have h2 : hasDD (c2 :: rest) = true := (hasDD_cons2_cases h).resolve_left hc
        rw [collapseStep_cons2, if_neg hc, List.length_cons, List.length_cons]
        exact Nat.succ_lt_succ (collapseStep_length_lt _ h2)

theorem collapseStep_head? : ∀ s : Str, (collapseStep s).head? = s.head?
  | [] => rfl
  | [c] => by simp [collapseStep]
  | c1 :: c2 :: rest => by
      by_cases hc : c1 = '_' ∧ c2 = '_'
      · obtain ⟨h1, h2⟩ := hc
        subst h1; subst h2
        simp [collapseStep]
      · simp [collapseStep, if_neg hc]

theorem collapseStep_ne_nil {s : Str} (h : s ≠ []) : collapseStep s ≠ [] := by
  intro hc
  cases s with
  | nil => exact h rfl
  | cons c t =>
      have := collapseStep_head? (c :: t)
      rw [hc] at this
      simp at this

theorem collapseStep_getLast? : ∀ s : Str, (collapseStep s).getLast? = s.getLast?
  | [] => rfl
  | [c] => by simp [collapseStep]
  | c1 :: c2 :: rest => by
      by_cases hc : c1 = '_' ∧ c2 = '_'
      · obtain ⟨h1, h2⟩ := hc
        subst h1; subst h2
        cases rest with
        | nil => rw [collapseStep_cons2, if_pos ⟨rfl, rfl⟩]; rfl
        | cons d t =>
            have hne : collapseStep (d :: t) ≠ [] := collapseStep_ne_nil (by simp)
            rw [collapseStep_cons2, if_pos ⟨rfl, rfl⟩,
              getLast?_cons_of_ne_nil hne, collapseStep_getLast? (d :: t),
              @getLast?_cons_of_ne_nil _ ('_' :: d :: t) (by simp),
              @getLast?_cons_of_ne_nil _ (d :: t) (by simp)]
      · have hne : collapseStep (c2 :: rest) ≠ [] := collapseStep_ne_nil (by simp)
        rw [collapseStep_cons2, if_neg hc,
          getLast?_cons_of_ne_nil hne, collapseStep_getLast? (c2 :: rest),
          @getLast?_cons_of_ne_nil _ (c2 :: rest) (by simp)]

theorem collapseLoop_sublist : ∀ (n : Nat) (s : Str), List.Sublist (collapseLoop n s) s
  | 0, s => List.Sublist.refl s
  | n + 1, s => by
      by_cases h : hasDD s = true
      · rw [collapseLoop, if_pos h]
        exact List.Sublist.trans (collapseLoop_sublist n _) (collapseStep_sublist s)
      · rw [collapseLoop, if_neg h]

theorem collapseLoop_head? : ∀ (n : Nat) (s : Str), (collapseLoop n s).head? = s.head?
  | 0, s => rfl
  | n + 1, s => by
      by_cases h : hasDD s = true
      · rw [collapseLoop, if_pos h, collapseLoop_head? n _, collapseStep_head?]
      · rw [collapseLoop, if_neg h]

theorem collapseLoop_getLast? : ∀ (n : Nat) (s : Str), (collapseLoop n s).getLast? = s.getLast?
  | 0, s => rfl
  | n + 1, s => by
      by_cases h : hasDD s = true
      · rw [collapseLoop, if_pos h, collapseLoop_getLast? n _, collapseStep_getLast?]
      · rw [collapseLoop, if_neg h]

theorem hasDD_collapseLoop : ∀ (n : Nat) (s : Str), s.length ≤ n →
    hasDD (collapseLoop n s) = false
  | 0, s, h => by
      have : s = [] := List.length_eq_zero.mp (Nat.le_zero.mp h)
      subst this
      rfl
  | n + 1, s, h => by
      by_cases hd : hasDD s = true
      · rw [collapseLoop, if_pos hd]
        exact hasDD_collapseLoop n _
          (Nat.le_of_lt_succ (Nat.lt_of_lt_of_le (collapseStep_length_lt s hd) h))
      · rw [collapseLoop, if_neg hd]
        simpa using hd

theorem hasDD_collapseU (s : Str) : hasDD (collapseU s) = false :=
  hasDD_collapseLoop s.length s le_rfl

theorem collapseU_id {s : Str} (h : hasDD s = false) : collapseU s = s := by
  unfold collapseU
  cases hn : s.length with
  | zero => rfl
  | succ n => rw [collapseLoop, if_neg (by simp [h])]

theorem hasDD_append_left : ∀ {p : Str} (t : Str), hasDD p = true → hasDD (p ++ t) = true
  | [], _, h => by simp [hasDD] at h
  | [c], _, h => by simp [hasDD] at h
  | c1 :: c2 :: rest, t, h => by
      rcases hasDD_cons2_cases h with h' | h'
      · simp only [List.cons_append]
        rw [hasDD_cons2]
        simp [h'.1, h'.2]
      · have := hasDD_append_left t h'
        simp only [List.cons_append] at this ⊢
        rw [hasDD_cons2]
        simp [this]

theorem rstripBy_append_decomp : ∀ (set s : Str), ∃ t, s = rstripBy set s ++ t
  | _, [] => ⟨[], rfl⟩
  | set, c :: rest => by
      obtain ⟨t, ht⟩ := rstripBy_append_decomp set rest
      by_cases h : rstripBy set rest = [] ∧ c ∈ set
      · exact ⟨c :: rest, by simp [rstripBy, h.1, h.2]⟩
      · refine ⟨t, ?_⟩
        simp only [rstripBy, if_neg h, List.cons_append]
        rw [← ht]

theorem rstripBy_sublist (set s : Str) : List.Sublist (rstripBy set s) s := by
  obtain ⟨t, ht⟩ := rstripBy_append_decomp set s
  have := List.sublist_append_left (rstripBy set s) t
  rwa [← ht] at this

theorem rstripBy_getLast? : ∀ (set s : Str) (c : Char),
    (rstripBy set s).getLast? = some c → c ∉ set
  | set, [], c, h => by simp [rstripBy] at h
  | set, a :: rest, c, h => by
      by_cases hc : rstripBy set rest = [] ∧ a ∈ set
      · rw [rstripBy] at h
        simp only [if_pos hc] at h
        simp at h
      · rw [rstripBy] at h
        simp only [if_neg hc] at h
        by_cases hr : rstripBy set rest = []
        · rw [hr] at h
          have hca : a = c := by simpa [List.getLast?] using h
          subst hca
          intro hmem
          exact hc ⟨hr, hmem⟩
        · rw [getLast?_cons_of_ne_nil hr] at h
          exact rstripBy_getLast? set rest c h

theorem rstripBy_id : ∀ (set s : Str),
    (∀ c, s.getLast? = some c → c ∉ set) → rstripBy set s = s
  | _, [], _ => rfl
  | set, a :: rest, h => by
      cases rest with
      | nil =>
          have ha : a ∉ set := h a rfl
          simp [rstripBy, ha]
      | cons b t =>
          have hr : rstripBy set (b :: t) = b :: t :=
            rstripBy_id set (b :: t)
              (fun c hc => h c (by rw [getLast?_cons_of_ne_nil (by simp)]; exact hc))
          rw [rstripBy]
          simp only [hr]
          simp

theorem rstripBy_head? {set s : Str} {c : Char} (hh : s.head? = some c) (hc : c ∉ set) :
    (rstripBy set s).head? = some c := by
  cases s with
  | nil => simp at hh
  | cons a rest =>
      have hca : a = c := by simpa using hh
      subst hca
      rw [rstripBy]
      rw [if_neg (fun hand => hc hand.2)]
      rfl

theorem head?_dropWhile (p : Char → Bool) : ∀ (s : Str) (c : Char),
    (s.dropWhile p).head? = some c → p c = false
  | [], c, h => by simp [List.dropWhile] at h
  | a :: t, c, h => by
      by_cases hp : p a = true
      · rw [List.dropWhile_cons, if_pos hp] at h
        exact head?_dropWhile p t c h
      · rw [List.dropWhile_cons, if_neg hp] at h
        have : a = c := by simpa using h
        subst this
        simpa using hp

theorem dropWhile_id {p : Char → Bool} {s : Str}
    (h : ∀ c, s.head? = some c → p c = false) : s.dropWhile p = s := by
  cases s with
  | nil => rfl
  | cons a t =>
      rw [List.dropWhile_cons, if_neg (by simp [h a rfl])]

theorem pyStrip_head? {set s : Str} {c : Char} (h : (pyStrip set s).head? = some c) :
    c ∉ set := by
  unfold pyStrip at h
  set q := s.dropWhile (fun c => decide (c ∈ set)) with hq
  obtain ⟨t, ht⟩ := rstripBy_append_decomp set q
  have hne : rstripBy set q ≠ [] := by
    intro hnil
    rw [hnil] at h
    simp at h
  have hqh : q.head? = some c := by
    rw [ht, head?_append_of_ne_nil hne, h]
  have := head?_dropWhile (fun c => decide (c ∈ set)) s c (by rw [← hq, hqh])
  simpa using this

theorem pyStrip_getLast? {set s : Str} {c : Char} (h : (pyStrip set s).getLast? = some c) :
    c ∉ set := rstripBy_getLast? set _ c h

theorem pyStrip_id {set s : Str}
    (hh : ∀ c, s.head? = some c → c ∉ set)
    (hl : ∀ c, s.getLast? = some c → c ∉ set) : pyStrip set s = s := by
  unfold pyStrip
  rw [dropWhile_id (fun c hc => by simpa using hh c hc)]
  exact rstripBy_id set s hl

/-! ### Properties of the sanitizer stages -/

theorem sanStage_mem {x : Str} {c : Char} (h : c ∈ sanStage x) :
    c ∉ invalid_chars ∧ 32 ≤ c.toNat := by
  unfold sanStage at h
  have h1 : c ∈ pyStrip stripSet ((replaceInvalid x).filter (fun c => 32 ≤ c.toNat)) :=
    (collapseLoop_sublist _ _).subset h
  have h2 : c ∈ (replaceInvalid x).filter (fun c => 32 ≤ c.toNat) := by
    unfold pyStrip at h1
    exact (List.dropWhile_sublist _).subset ((rstripBy_sublist _ _).subset h1)
  obtain ⟨h3, h4⟩ := List.mem_filter.mp h2
  refine ⟨?_, by simpa using h4⟩
  rcases mem_replace_foldl invalid_chars x c h3 with h5 | ⟨_, h6⟩
  · subst h5
    decide
  · exact h6

theorem sanStage_head? {x : Str} {c : Char} (h : (sanStage x).head? = some c) :
    c ∉ stripSet := by
  unfold sanStage collapseU at h
  rw [collapseLoop_head?] at h
  exact pyStrip_head? h

theorem sanStage_getLast? {x : Str} {c : Char} (h : (sanStage x).getLast? = some c) :
    c ∉ stripSet := by
  unfold sanStage collapseU at h
  rw [collapseLoop_getLast?] at h
  exact pyStrip_getLast? h

theorem sanStage_hasDD (x : Str) : hasDD (sanStage x) = false := hasDD_collapseU _

theorem sanNamed_ne_nil (x : Str) : sanNamed x ≠ [] := by
  unfold sanNamed
  by_cases h : sanStage x = []
  · rw [if_pos h]; decide
  · rw [if_neg h]; exact h

theorem sanNamed_mem {x : Str} {c : Char} (h : c ∈ sanNamed x) :
    c ∉ invalid_chars ∧ 32 ≤ c.toNat := by
  unfold sanNamed at h
  by_cases hs : sanStage x = []
  · rw [if_pos hs] at h
    have hall : ∀ d ∈ "unnamed".toList, d ∉ invalid_chars ∧ 32 ≤ d.toNat := by decide
    exact hall c h
  · rw [if_neg hs] at h
    exact sanStage_mem h

theorem sanNamed_head? {x : Str} {c : Char} (h : (sanNamed x).head? = some c) :
    c ∉ stripSet := by
  unfold sanNamed at h
  by_cases hs : sanStage x = []
  · rw [if_pos hs] at h
    have h' : 'u' = c := by simpa using h
    subst h'
    decide
  · rw [if_neg hs] at h
    exact sanStage_head? h

theorem sanNamed_getLast? {x : Str} {c : Char} (h : (sanNamed x).getLast? = some c) :
    c ∉ stripSet := by
  unfold sanNamed at h
  by_cases hs : sanStage x = []
  · rw [if_pos hs] at h
    have h' : 'd' = c := by simpa using h
    subst h'
    decide
  · rw [if_neg hs] at h
    exact sanStage_getLast? h

theorem sanNamed_hasDD (x : Str) : hasDD (sanNamed x) = false := by
  unfold sanNamed
  by_cases hs : sanStage x = []
  · rw [if_pos hs]; decide
  · rw [if_neg hs]; exact sanStage_hasDD x

/-! ### Properties of `sanitize_filename` -/

theorem sanitize_mem {x : Str} {c : Char} (h : c ∈ sanitize_filename x) :
    c ∉ invalid_chars ∧ 32 ≤ c.toNat := by
  unfold sanitize_filename at h
  by_cases ht : 200 < (sanNamed x).length
  · rw [if_pos ht] at h
    exact sanNamed_mem ((List.take_sublist _ _).subset ((rstripBy_sublist _ _).subset h))
  · rw [if_neg ht] at h
    exact sanNamed_mem h

theorem sanitize_hasDD (x : Str) : hasDD (sanitize_filename x) = false := by
  unfold sanitize_filename
  by_cases ht : 200 < (sanNamed x).length
  · rw [if_pos ht]
    by_contra hdd
    have hDD1 : hasDD (rstripBy ['_'] ((sanNamed x).take 200)) = true :=
      Bool.not_eq_false _ ▸ (by simpa using hdd)
    obtain ⟨t1, ht1⟩ := rstripBy_append_decomp ['_'] ((sanNamed x).take 200)
    have hDD2 : hasDD ((sanNamed x).take 200) = true := by
      rw [ht1]
      exact hasDD_append_left t1 hDD1
    have hsplit : sanNamed x = (sanNamed x).take 200 ++ (sanNamed x).drop 200 :=
      (List.take_append_drop _ _).symm
    have hDD3 : hasDD (sanNamed x) = true := by
      rw [hsplit]
      exact hasDD_append_left _ hDD2
    rw [sanNamed_hasDD] at hDD3
    exact Bool.false_ne_true hDD3
  · rw [if_neg ht]
    exact sanNamed_hasDD x

theorem sanitize_ne_nil (x : Str) : sanitize_filename x ≠ [] := by
  unfold sanitize_filename
  by_cases ht : 200 < (sanNamed x).length
  · rw [if_pos ht]
    obtain ⟨c, t, hct⟩ : ∃ c t, sanNamed x = c :: t := by
      cases hsn : sanNamed x with
      | nil => exact absurd hsn (sanNamed_ne_nil x)
      | cons c t => exact ⟨c, t, rfl⟩
    have hc : c ∉ stripSet := sanNamed_head? (by rw [hct]; rfl)
    have htake : ((sanNamed x).take 200).head? = some c := by
      rw [hct]
      rfl
    have hkeep := @rstripBy_head? ['_'] _ _ htake
      (by
        intro hmem
        have : c = '_' := by simpa using hmem
        exact hc (by simp [this, stripSet]))
    intro hnil
    rw [hnil] at hkeep
    simp at hkeep
  · rw [if_neg ht]
    exact sanNamed_ne_nil x

theorem sanitize_head? {x : Str} {c : Char} (h : (sanitize_filename x).head? = some c) :
    c ∉ stripSet := by
  unfold sanitize_filename at h
  by_cases ht : 200 < (sanNamed x).length
  · rw [if_pos ht] at h
    obtain ⟨t1, ht1⟩ := rstripBy_append_decomp ['_'] ((sanNamed x).take 200)
    have hne : rstripBy ['_'] ((sanNamed x).take 200) ≠ [] := by
      intro hnil
      rw [hnil] at h
      simp at h
    have h2 : ((sanNamed x).take 200).head? = some c := by
      rw [ht1, head?_append_of_ne_nil hne, h]
    have hne2 : (sanNamed x).take 200 ≠ [] := by
      intro hnil
      rw [hnil] at h2
      simp at h2
    have h3 : (sanNamed x).head? = some c := by
      have hsplit : sanNamed x = (sanNamed x).take 200 ++ (sanNamed x).drop 200 :=
        (List.take_append_drop _ _).symm
      rw [hsplit, head?_append_of_ne_nil hne2, h2]
    exact sanNamed_head? h3
  · exact sanNamed_head? (by rwa [if_neg ht] at h)

theorem sanitize_getLast?_ne {x : Str} {c : Char}
    (h : (sanitize_filename x).getLast? = some c) : c ≠ '_' ∧ c ≠ ' ' := by
  constructor
  · intro hc
    subst hc
    unfold sanitize_filename at h
    by_cases ht : 200 < (sanNamed x).length
    · rw [if_pos ht] at h
      exact (rstripBy_getLast? _ _ _ h) (by simp)
    · rw [if_neg ht] at h
      exact (sanNamed_getLast? h) (by decide)
  · intro hc
    subst hc
    have hmem := sanitize_mem (memOfGetLast? h)
    exact hmem.1 (by decide)

theorem sanitize_length_le (x : Str) : (sanitize_filename x).length ≤ 200 := by
  unfold sanitize_filename
  by_cases ht : 200 < (sanNamed x).length
  · rw [if_pos ht]
    have h1 := List.Sublist.length_le (rstripBy_sublist ['_'] ((sanNamed x).take 200))
    have h2 := List.length_take_le 200 (sanNamed x)
    omega
  · rw [if_neg ht]
    omega

/-- If a string already satisfies all the invariants the sanitizer
establishes (and in addition does not end in a dot, which the strip stage
would remove), the sanitizer leaves it unchanged. -/
theorem sanitize_id_of {y : Str}
    (hmem : ∀ c ∈ y, c ∉ invalid_chars ∧ 32 ≤ c.toNat)
    (hh : ∀ c, y.head? = some c → c ∉ stripSet)
    (hl : ∀ c, y.getLast? = some c → c ∉ stripSet)
    (hdd : hasDD y = false)
    (hne : y ≠ [])
    (hlen : y.length ≤ 200) : sanitize_filename y = y := by
  have h1 : replaceInvalid y = y := replace_foldl_id _ y (fun c hc => (hmem c hc).1)
  have h2 : (replaceInvalid y).filter (fun c => 32 ≤ c.toNat) = y := by
    rw [h1]
    exact List.filter_eq_self.mpr (fun c hc => by simpa using (hmem c hc).2)
  have h3 : sanStage y = y := by
    unfold sanStage
    rw [h2, pyStrip_id hh hl, collapseU_id hdd]
  have h4 : sanNamed y = y := by
    unfold sanNamed
    rw [h3, if_neg hne]
  unfold sanitize_filename
  rw [h4, if_neg (by omega)]

/-- A 201-character input whose 200th character is a dot: truncation to
200 characters cuts right after the dot and `rstrip('_')` does not remove
it. -/
def c5badInput : Str := List.replicate 199 'a' ++ ['.', 'b']

set_option maxRecDepth 100000 in
/-- C5 counterexample: the claim "the output of sanitize contains ... no
leading or trailing underscore, dot, or space" is false: on the concrete
201-character input `"a"*199 + ".b"` the sanitizer output ends with a
dot (truncation to 200 characters keeps the trailing `'.'`, and the final
`rstrip` only removes underscores). -/
theorem c5_counterexample : (sanitize_filename c5badInput).getLast? = some '.' := by decide

/-- C5 (amended): for every input, the output of `sanitize_filename`
contains none of the disallowed characters, no ASCII control characters,
is nonempty, has no leading underscore, dot or space, no trailing
underscore or space (a trailing dot can survive truncation), and has
length at most 200; `sanitize_filename "" = "unnamed"` and
`sanitize_filename "a__b" = "a_b"`. -/
theorem c5_sanitize_output_props :
    (∀ x : Str,
      (∀ c ∈ sanitize_filename x, c ∉ invalid_chars ∧ 32 ≤ c.toNat) ∧
      sanitize_filename x ≠ [] ∧
      (∀ c, (sanitize_filename x).head? = some c → c ≠ '_' ∧ c ≠ '.' ∧ c ≠ ' ') ∧
      (∀ c, (sanitize_filename x).getLast? = some c → c ≠ '_' ∧ c ≠ ' ') ∧
      (sanitize_filename x).length ≤ 200) ∧
    sanitize_filename [] = "unnamed".toList ∧
    sanitize_filename "a__b".toList = "a_b".toList := by
  refine ⟨fun x => ⟨fun c hc => sanitize_mem hc, sanitize_ne_nil x, ?_, ?_, sanitize_length_le x⟩,
    by decide, by decide⟩
  · intro c hc
    have := sanitize_head? hc
    simp only [stripSet, List.mem_cons, List.mem_singleton] at this
    push_neg at this
    exact ⟨this.1, this.2.1, by simpa using this.2.2⟩
  · intro c hc
    exact sanitize_getLast?_ne hc

set_option maxRecDepth 100000 in
/-- C6 counterexample: `sanitize` is not idempotent.  On the concrete
input `"a"*199 + ".b"` the first application yields a 200-character
string ending in `'.'`; the second application strips that trailing dot,
so the results differ. -/
theorem c6_counterexample :
    sanitize_filename (sanitize_filename c5badInput) ≠ sanitize_filename c5badInput := by
  decide

/-- C6 (amended): `sanitize` is idempotent on every input whose sanitized
form does not end in a dot (the only way a strippable character survives
is a trailing dot kept by truncation; there the second application
removes it). -/
theorem c6_sanitize_idempotent (x : Str)
    (h : (sanitize_filename x).getLast? ≠ some '.') :
    sanitize_filename (sanitize_filename x) = sanitize_filename x := by
  apply sanitize_id_of
  · intro c hc
    exact sanitize_mem hc
  · intro c hc
    exact sanitize_head? hc
  · intro c hc
    obtain ⟨h1, h2⟩ := sanitize_getLast?_ne hc
    intro hmem
    rcases (show c = '_' ∨ c = '.' ∨ c = ' ' by simpa [stripSet] using hmem) with h3 | h3 | h3
    · exact h1 h3
    · exact h (h3 ▸ hc)
    · exact h2 h3
  · exact sanitize_hasDD x
  · exact sanitize_ne_nil x
  · exact sanitize_length_le x

/-- Witness for the amended C6 theorem at the concrete input `"a__b"`. -/
theorem c6_sanitize_idempotent_witness :
    (sanitize_filename "a__b".toList).getLast? ≠ some '.' ∧
    sanitize_filename (sanitize_filename "a__b".toList) = sanitize_filename "a__b".toList :=
  ⟨by decide, c6_sanitize_idempotent _ (by decide)⟩

/-! ## Date extractor (`extract_last_updated_date`, source lines 84-194)

The Python function receives the raw HTML, builds a soup, and then works
on two projections of it: `soup.get_text()` (scanned by the regex
patterns) and the five `soup.find('meta', ...)` lookups.  The model takes
those two projections (`text`, `metas`) as inputs, and takes
`dateutil.parser.parse` as an oracle function `du` returning a parsed
date or `none` (an exception).  Each regex of the source is translated
into an explicit leftmost-search matcher with the same greedy/backtrack
behaviour (ASCII classes for `\s`, `\d`, `\w`, IGNORECASE keyword
matching). -/

def isWs (c : Char) : Bool := c ∈ [' ', '\t', '\n', '\r', '\x0b', '\x0c']

def isDigitC (c : Char) : Bool := '0' ≤ c && c ≤ '9'

def isWordC (c : Char) : Bool :=
  ('a' ≤ c && c ≤ 'z') || ('A' ≤ c && c ≤ 'Z') || isDigitC c || c = '_'

def lowerC (c : Char) : Char :=
  if 'A' ≤ c ∧ c ≤ 'Z' then Char.ofNat (c.toNat + 32) else c

/-- Case-insensitive literal match at the start of `s`; returns the
consumed original text and the remainder. -/
def matchLitCI : Str → Str → Option (Str × Str)
  | s, [] => some ([], s)
  | [], _ :: _ => none
  | c :: s, p :: ps =>
      if lowerC c = lowerC p then
        match matchLitCI s ps with
        | some (cons, rest) => some (c :: cons, rest)
        | none => none
      else none

/-- `\s+` (greedy). -/
def matchWs1 (s : Str) : Option (Str × Str) :=
  let w := s.takeWhile isWs
  if w = [] then none else some (w, s.drop w.length)

/-- Exactly `n` digits. -/
def matchDigits : Nat → Str → Option (Str × Str)
  | 0, s => some ([], s)
  | _ + 1, [] => none
  | n + 1, c :: s =>
      if isDigitC c then (matchDigits n s).map (fun p => (c :: p.1, p.2)) else none

def matchChar (ch : Char) : Str → Option Str
  | [] => none
  | c :: s => if c = ch then some s else none

/-- `(\d{1,2})\.`: greedy two digits, backtracking to one, then a literal
dot; returns the digit group and the rest (after the dot). -/
def matchDayDot : Str → Option (Str × Str)
  | d1 :: d2 :: rest =>
      if isDigitC d1 then
        if isDigitC d2 then
          match rest with
          | '.' :: r => some ([d1, d2], r)
          | _ => none
        else if d2 = '.' then some ([d1], rest)
        else none
      else none
  | _ => none

/-- `(\w{3,4})\.`: greedy four word characters, backtracking to three,
then a literal dot. -/
def matchMonDot : Str → Option (Str × Str)
  | w1 :: w2 :: w3 :: w4 :: rest =>
      if isWordC w1 && isWordC w2 && isWordC w3 then
        if isWordC w4 then
          match rest with
          | '.' :: r => some ([w1, w2, w3, w4], r)
          | _ => none
        else if w4 = '.' then some ([w1, w2, w3], rest)
        else none
      else none
  | _ => none

/-- `\d{4}-\d{2}-\d{2}`. -/
def matchISODate (s : Str) : Option (Str × Str) := do
  let (y, r1) ← matchDigits 4 s
  let r2 ← matchChar '-' r1
  let (m, r3) ← matchDigits 2 r2
  let r4 ← matchChar '-' r3
  let (d, r5) ← matchDigits 2 r4
  some (y ++ '-' :: m ++ '-' :: d, r5)

/-- `\d{4}-\d{2}-\d{2}T\d{2}:\d{2}:\d{2}Z`. -/
def matchISOTs (s : Str) : Option (Str × Str) := do
  let (d, r) ← matchISODate s
  let r1 ← matchChar 'T' r
  let (hh, r2) ← matchDigits 2 r1
  let r3 ← matchChar ':' r2
  let (mi, r4) ← matchDigits 2 r3
  let r5 ← matchChar ':' r4
  let (se, r6) ← matchDigits 2 r5
  let r7 ← matchChar 'Z' r6
  some (d ++ 'T' :: hh ++ ':' :: mi ++ ':' :: se ++ ['Z'], r7)

/-- `(?:sist oppdatert|last updated)` (IGNORECASE, left alternative
first). -/
def matchKwUpd (s : Str) : Option (Str × Str) :=
  match matchLitCI s "sist oppdatert".toList with
  | some p => some p
  | none => matchLitCI s "last updated".toList

/-- `(?:dated|datert)` (IGNORECASE, left alternative first). -/
def matchKwDated (s : Str) : Option (Str × Str) :=
  match matchLitCI s "dated".toList with
  | some p => some p
  | none => matchLitCI s "datert".toList

/-- Pattern 1: `(?:sist oppdatert|last updated)\s+(\d{1,2})\.\s+(\w{3,4})\.\s+(\d{4})`. -/
def pat1At (s : Str) : Option (Str × List Str) := do
  let (k, r) ← matchKwUpd s
  let (w1, r) ← matchWs1 r
  let (day, r) ← matchDayDot r
  let (w2, r) ← matchWs1 r
  let (mon, r) ← matchMonDot r
  let (w3, r) ← matchWs1 r
  let (yr, _) ← matchDigits 4 r
  some (k ++ w1 ++ day ++ '.' :: w2 ++ mon ++ '.' :: w3 ++ yr, [day, mon, yr])

/-- Pattern 2: `(?:dated|datert)\s+(\d{4}-\d{2}-\d{2}T\d{2}:\d{2}:\d{2}Z)`. -/
def pat2At (s : Str) : Option (Str × List Str) := do
  let (k, r) ← matchKwDated s
  let (w1, r) ← matchWs1 r
  let (ts, _) ← matchISOTs r
  some (k ++ w1 ++ ts, [ts])

/-- Pattern 3: `(?:sist oppdatert|last updated)\s+(\d{4}-\d{2}-\d{2})`. -/
def pat3At (s : Str) : Option (Str × List Str) := do
  let (k, r) ← matchKwUpd s
  let (w1, r) ← matchWs1 r
  let (d, _) ← matchISODate r
  some (k ++ w1 ++ d, [d])

/-- Pattern 4: the colon variant of pattern 1. -/
def pat4At (s : Str) : Option (Str × List Str) := do
  let (k, r) ← matchKwUpd s
  let r ← matchChar ':' r
  let (w1, r) ← matchWs1 r
  let (day, r) ← matchDayDot r
  let (w2, r) ← matchWs1 r
  let (mon, r) ← matchMonDot r
  let (w3, r) ← matchWs1 r
  let (yr, _) ← matchDigits 4 r
  some (k ++ ':' :: w1 ++ day ++ '.' :: w2 ++ mon ++ '.' :: w3 ++ yr, [day, mon, yr])

/-- Pattern 5: the colon variant of pattern 3. -/
def pat5At (s : Str) : Option (Str × List Str) := do
  let (k, r) ← matchKwUpd s
  let r ← matchChar ':' r
  let (w1, r) ← matchWs1 r
  let (d, _) ← matchISODate r
  some (k ++ ':' :: w1 ++ d, [d])

/-- Pattern 6: the colon variant of pattern 2. -/
def pat6At (s : Str) : Option (Str × List Str) := do
  let (k, r) ← matchKwDated s
  let r ← matchChar ':' r
  let (w1, r) ← matchWs1 r
  let (ts, _) ← matchISOTs r
  some (k ++ ':' :: w1 ++ ts, [ts])

/-- `re.search`: try the pattern at each position, leftmost first. -/
def searchPat (p : Str → Option (Str × List Str)) : Str → Option (Str × List Str)
  | [] => p []
  | c :: t =>
      match p (c :: t) with
      | some m => some m
      | none => searchPat p t

def digitsToNat (s : Str) : Nat := s.foldl (fun a c => a * 10 + (c.toNat - 48)) 0

def isLeap (y : Nat) : Bool := (y % 4 = 0 && y % 100 ≠ 0) || y % 400 = 0

def daysInMonth (y m : Nat) : Nat :=
  if m = 2 then (if isLeap y then 29 else 28)
  else if m = 4 || m = 6 || m = 9 || m = 11 then 30
  else 31

/-- Shape check: ten characters, `dddd-dd-dd`. -/
def isISOish (s : Str) : Bool :=
  match s with
  | [y1, y2, y3, y4, h1, m1, m2, h2, d1, d2] =>
      isDigitC y1 && isDigitC y2 && isDigitC y3 && isDigitC y4 && h1 = '-' &&
      isDigitC m1 && isDigitC m2 && h2 = '-' && isDigitC d1 && isDigitC d2
  | _ => false

/-- Models `datetime.strptime(s, '%Y-%m-%d')` succeeding: the exact
`YYYY-MM-DD` shape and a valid proleptic Gregorian calendar date with
year at least 1 (`datetime.MINYEAR`). -/
def validISO (s : Str) : Bool :=
  isISOish s &&
  (let y := digitsToNat (s.take 4)
   let m := digitsToNat ((s.drop 5).take 2)
   let d := digitsToNat (s.drop 8)
   1 ≤ y && 1 ≤ m && m ≤ 12 && 1 ≤ d && d ≤ daysInMonth y m)

/-- Python `str.zfill(2)`. -/
def zfill2 (s : Str) : Str :=
  if s.length < 2 then List.replicate (2 - s.length) '0' ++ s else s

/-- The fixed Norwegian month table of the source. -/
def norwegian_months : List (Str × Str) :=
  [("jan".toList, "01".toList), ("feb".toList, "02".toList),
   ("mar".toList, "03".toList), ("apr".toList, "04".toList),
   ("mai".toList, "05".toList), ("jun".toList, "06".toList),
   ("jul".toList, "07".toList), ("aug".toList, "08".toList),
   ("sep".toList, "09".toList), ("okt".toList, "10".toList),
   ("nov".toList, "11".toList), ("des".toList, "12".toList)]

/-- A parsed `datetime` as returned by `dateutil.parser.parse`. -/
structure PDate where
  year : Nat
  month : Nat
  day : Nat

def natDigitsAux : Nat → Nat → Str
  | 0, _ => []
  | fuel + 1, n =>
      if n < 10 then [Nat.digitChar n]
      else natDigitsAux fuel (n / 10) ++ [Nat.digitChar (n % 10)]

def natDigits (n : Nat) : Str := natDigitsAux (n + 1) n

def zfillTo (k : Nat) (s : Str) : Str := List.replicate (k - s.length) '0' ++ s

/-- `dt.strftime('%Y-%m-%d')` (zero-padded fields). -/
def formatPDate (d : PDate) : Str :=
  zfillTo 4 (natDigits d.year) ++ '-' :: zfillTo 2 (natDigits d.month) ++
    '-' :: zfillTo 2 (natDigits d.day)

/-- The per-match processing of the source's pattern loop body: `some d`
models `return d`, `none` models falling through to the next pattern. -/
def processMatch (du : Str → Option PDate) (g0 : Str) (groups : List Str) : Option Str :=
  if containsSub g0 ['T'] then
    match groups with
    | g :: _ =>
        let ds := g.takeWhile (fun c => c ≠ 'T')
        if validISO ds then some ds else none
    | [] => none
  else if groups.length = 1 ∧ containsSub (groups.headD []) ['-'] then
    let ds := groups.headD []
    if validISO ds then some ds else none
  else
    match groups with
    | [day, mon, yr] =>
        let monKey := rstripBy ['.'] (mon.map lowerC)
        match (norwegian_months.find? (fun p => p.1 = monKey)).map Prod.snd with
        | some mm =>
            let ds := yr ++ '-' :: mm ++ '-' :: zfill2 day
            if validISO ds then some ds else none
        | none =>
            match du (day ++ ' ' :: mon ++ ' ' :: yr) with
            | some pd => some (formatPDate pd)
            | none => none
    | _ => none

structure MetaTag where
  prop : Option Str
  nameA : Option Str
  httpEquiv : Option Str
  content : Option Str

def findMetaProp (metas : List MetaTag) (p : Str) : Option MetaTag :=
  metas.find? (fun t => t.prop = some p)

def findMetaName (metas : List MetaTag) (n : Str) : Option MetaTag :=
  metas.find? (fun t => t.nameA = some n)

def findMetaHttpEquiv (metas : List MetaTag) (n : Str) : Option MetaTag :=
  metas.find? (fun t => t.httpEquiv = some n)

/-- The five `soup.find('meta', ...)` lookups, in source order. -/
def metaCandidates (metas : List MetaTag) : List (Option MetaTag) :=
  [findMetaProp metas "article:modified_time".toList,
   findMetaProp metas "article:published_time".toList,
   findMetaName metas "last-modified".toList,
   findMetaName metas "date".toList,
   findMetaHttpEquiv metas "last-modified".toList]

/-- The meta-tag fallback loop: parse the first truthy `content`
generically, skipping parse failures. -/
def metaLoop (du : Str → Option PDate) : List (Option MetaTag) → Option Str
  | [] => none
  | none :: rest => metaLoop du rest
  | some t :: rest =>
      match t.content with
      | some c =>
          if c = [] then metaLoop du rest
          else
            match du c with
            | some pd => some (formatPDate pd)
            | none => metaLoop du rest
      | none => metaLoop du rest

def datePatterns : List (Str → Option (Str × List Str)) :=
  [pat1At, pat2At, pat3At, pat4At, pat5At, pat6At]

def patLoop (du : Str → Option PDate) :
    List (Str → Option (Str × List Str)) → Str → Option Str
  | [], _ => none
  | p :: ps, text =>
      match searchPat p text with
      | some (g0, groups) =>
          match processMatch du g0 groups with
          | some d => some d
          | none => patLoop du ps text
      | none => patLoop du ps text

/-- `extract_last_updated_date` translated from the source: try the six
text patterns in order, then fall back to the meta tags, else `None`. -/
def extract_last_updated_date (du : Str → Option PDate) (text : Str)
    (metas : List MetaTag) : Option Str :=
  match patLoop du datePatterns text with
  | some d => some d
  | none => metaLoop du (metaCandidates metas)

set_option maxRecDepth 40000 in
/-- C8: the date extractor satisfies the three reference cases of the
spec, for any behaviour of the generic date parser `du` (which is never
consulted on these inputs): text `"Last updated 2024-12-06"` yields
`"2024-12-06"`; text `"Sist oppdatert 02. des. 2025"` yields
`"2025-12-02"` through the Norwegian month table; text with no
recognizable pattern and no meta tags yields `none`. -/
theorem c8_date_extractor_reference_cases (du : Str → Option PDate) :
    extract_last_updated_date du "Last updated 2024-12-06".toList [] =
      some "2024-12-06".toList ∧
    extract_last_updated_date du "Sist oppdatert 02. des. 2025".toList [] =
      some "2025-12-02".toList ∧
    extract_last_updated_date du "hello world".toList [] = none :=
  ⟨rfl, rfl, rfl⟩

/-! ## Anchor extraction (`extract_anchor_content`, source lines 630-689)

The parsed document (`BeautifulSoup`) is modelled as a tree of elements;
`Elems` is the sibling list (text nodes are not returned by `find` /
`find_next_siblings`, so only element nodes are modelled; an element's
direct text is kept in its `txt` field for serialization).  `find(id=...)`
and the other lookups are preorder (document-order) searches as in
BeautifulSoup. -/

mutual
inductive Elem where
  | mk (tag : Str) (idA : Option Str) (nameAttr : Option Str) (hrefA : Option Str)
      (txt : Str) (children : Elems)
inductive Elems where
  | nil
  | cons (e : Elem) (es : Elems)
end

def Elem.tag : Elem → Str
  | .mk t _ _ _ _ _ => t

def Elem.children : Elem → Elems
  | .mk _ _ _ _ _ c => c

def Elems.toList : Elems → List Elem
  | .nil => []
  | .cons e es => e :: es.toList

def renderAttr (n : Str) (v : Option Str) : Str :=
  match v with
  | none => []
  | some s => ' ' :: n ++ '=' :: '"' :: s ++ ['"']

mutual
/-- `str(element)`: serialize an element and its subtree. -/
def renderE : Elem → Str
  | .mk t i n h txt c =>
      '<' :: t ++ renderAttr "id".toList i ++ renderAttr "name".toList n ++
        renderAttr "href".toList h ++ '>' :: txt ++ renderEs c ++ '<' :: '/' :: t ++ ['>']
def renderEs : Elems → Str
  | .nil => []
  | .cons e es => renderE e ++ renderEs es
end

def headingTags : List Str :=
  ["h1".toList, "h2".toList, "h3".toList, "h4".toList, "h5".toList, "h6".toList]

/-- `element.name in ['h1', ..., 'h6']`. -/
def isHeading (e : Elem) : Bool := e.tag ∈ headingTags

/-- `int(element.name[1])`. -/
def headingLevel (e : Elem) : Nat :=
  match e.tag with
  | [_, c] => c.toNat - 48
  | _ => 0

/-- `soup.find(id=anchor_id)` together with the element's following
siblings (`find_next_siblings`), searching the tree in document order. -/
def findIdCtx (a : Str) : Elems → Option (Elem × Elems)
  | .nil => none
  | .cons (.mk t i n h txt c) rest =>
      if i = some a then some (.mk t i n h txt c, rest)
      else
        match findIdCtx a c with
        | some p => some p
        | none => findIdCtx a rest

/-- `soup.find(attrs={"name": anchor_id})`. -/
def findByName (a : Str) : Elems → Option Elem
  | .nil => none
  | .cons (.mk t i n h txt c) rest =>
      if n = some a then some (.mk t i n h txt c)
      else
        match findByName a c with
        | some e => some e
        | none => findByName a rest

/-- `soup.find('a', href='#'+anchor_id)`, returning the link's parent and
the parent's following siblings; `some none` means the link sits at the
document's top level (its parent is the soup itself, which is not a
heading tag). -/
def findALink (a : Str) : Elems → Option (Option (Elem × Elems))
  | .nil => none
  | .cons (.mk t i n h txt c) rest =>
      if t = "a".toList ∧ h = some ('#' :: a) then some none
      else
        match findALink a c with
        | some none => some (some (.mk t i n h txt c, rest))
        | some (some p) => some (some p)
        | none => findALink a rest

/-- The `for sibling in element.find_next_siblings()` loop with its
`break` on the next heading of equal or higher level. -/
def collectSibs (k : Nat) : Elems → List Elem
  | .nil => []
  | .cons e rest =>
      if isHeading e ∧ headingLevel e ≤ k then []
      else e :: collectSibs k rest

/-- `'\n'.join(content)`. -/
def joinNL : List Str → Str
  | [] => []
  | [s] => s
  | s :: rest => s ++ '\n' :: joinNL rest

/-- The heading-slice serialization: the heading itself plus the
collected siblings, each serialized, joined by newlines. -/
def sliceFrom (e : Elem) (sibs : Elems) : Str :=
  joinNL (renderE e :: (collectSibs (headingLevel e) sibs).map renderE)

/-- `extract_anchor_content` translated from the source. -/
def extract_anchor_content (doc : Elems) (anchor : Str) : Option Str :=
  match findIdCtx anchor doc with
  | some (e, sibs) =>
      if isHeading e then some (sliceFrom e sibs)
      else some (renderE e)
  | none =>
      match findByName anchor doc with
      | some e => some (renderE e)
      | none =>
          match findALink anchor doc with
          | some (some (parent, psibs)) =>
              if isHeading parent then some (sliceFrom parent psibs) else none
          | some none => none
          | none => none

theorem collectSibs_eq_takeWhile : ∀ (k : Nat) (es : Elems),
    collectSibs k es =
      es.toList.takeWhile (fun s => !(isHeading s && decide (headingLevel s ≤ k)))
  | _, .nil => rfl
  | k, .cons e rest => by
      by_cases h : isHeading e ∧ headingLevel e ≤ k
      · rw [collectSibs, if_pos h]
        simp [Elems.toList, List.takeWhile_cons, h.1, h.2]
      · rw [collectSibs, if_neg h]
        rw [Elems.toList, List.takeWhile_cons]
        rw [collectSibs_eq_takeWhile k rest]
        by_cases h1 : isHeading e = true
        · have h2 : ¬ headingLevel e ≤ k := fun h2 => h ⟨h1, h2⟩
          simp [h1, h2]
        · simp [Bool.not_eq_true _ ▸ h1]

/-- C9: in anchor-extraction mode, when the fragment matches an element
by id and that element is a heading, the slice is exactly the heading
plus the following siblings up to (not including) the next heading of
equal or higher level; when the matched element is not a heading, the
slice is that single element; and on the reference document
`<h2 id="x">A</h2><p>p1</p><h2>B</h2>` extracting anchor `x` yields
exactly the `h2` and the `p1` paragraph. -/
theorem c9_anchor_slicing :
    (∀ (doc : Elems) (a : Str) (e : Elem) (sibs : Elems),
        findIdCtx a doc = some (e, sibs) → isHeading e = true →
        extract_anchor_content doc a =
          some (joinNL (renderE e ::
            ((sibs.toList.takeWhile
                (fun s => !(isHeading s && decide (headingLevel s ≤ headingLevel e)))).map
              renderE)))) ∧
    (∀ (doc : Elems) (a : Str) (e : Elem) (sibs : Elems),
        findIdCtx a doc = some (e, sibs) → isHeading e = false →
        extract_anchor_content doc a = some (renderE e)) ∧
    extract_anchor_content
        (.cons (.mk "h2".toList (some "x".toList) none none "A".toList .nil)
          (.cons (.mk "p".toList none none none "p1".toList .nil)
            (.cons (.mk "h2".toList none none none "B".toList .nil) .nil)))
        "x".toList =
      some "<h2 id=\"x\">A</h2>\n<p>p1</p>".toList := by
  refine ⟨?_, ?_, by decide⟩
  · intro doc a e sibs hfind hh
    unfold extract_anchor_content
    rw [hfind]
    show (if isHeading e = true then some (sliceFrom e sibs) else some (renderE e)) = _
    rw [if_pos hh, sliceFrom, collectSibs_eq_takeWhile]
  · intro doc a e sibs hfind hh
    unfold extract_anchor_content
    rw [hfind]
    show (if isHeading e = true then some (sliceFrom e sibs) else some (renderE e)) = _
    rw [if_neg (by simp [hh])]

/-- Witness for C9's conditional parts at the reference document. -/
theorem c9_anchor_slicing_witness :
    extract_anchor_content
        (.cons (.mk "h2".toList (some "x".toList) none none "A".toList .nil)
          (.cons (.mk "p".toList none none none "p1".toList .nil)
            (.cons (.mk "h2".toList none none none "B".toList .nil) .nil)))
        "x".toList =
      some (joinNL (renderE (.mk "h2".toList (some "x".toList) none none "A".toList .nil) ::
        (((Elems.cons (.mk "p".toList none none none "p1".toList .nil)
              (.cons (.mk "h2".toList none none none "B".toList .nil) .nil)).toList.takeWhile
            (fun s => !(isHeading s &&
              decide (headingLevel s ≤
                headingLevel (.mk "h2".toList (some "x".toList) none none "A".toList .nil))))).map
          renderE))) :=
  c9_anchor_slicing.1
    (.cons (.mk "h2".toList (some "x".toList) none none "A".toList .nil)
      (.cons (.mk "p".toList none none none "p1".toList .nil)
        (.cons (.mk "h2".toList none none none "B".toList .nil) .nil)))
    "x".toList
    (.mk "h2".toList (some "x".toList) none none "A".toList .nil)
    (.cons (.mk "p".toList none none none "p1".toList .nil)
      (.cons (.mk "h2".toList none none none "B".toList .nil) .nil))
    rfl rfl

/-! ## The crawl engine (`YeehaaScraper`, source lines 196-975)

A parsed URL is a structure (the crawler only manipulates URLs through
`urlparse`/`geturl`); the rendering browser session is an oracle
`world : Str → Page` giving, for a navigated URL, the extracted markup,
title, page text, meta tags, parsed DOM and the `href` attributes of all
anchor elements.  `requests.get`, `markdownify`, the `srcrepl` regex
rewrite, `hashlib.md5(...).hexdigest()` and `dateutil.parser.parse` are
likewise oracle functions in the configuration.  Besides the five
mutable fields of the Python object (`scraped_urls`, `content_hashes`,
`metadata`, file writes, `authenticated`), the state carries pure
observation (ghost) lists that record events as they happen — navigations,
authentication runs, dedup checks, materializations, duplicate skips,
record/write targets, fetches — so that the theorems can speak about
them; they influence no branch. -/

structure Url where
  scheme : Str
  netloc : Str
  path : Str
  query : Str
  fragment : Str
deriving DecidableEq

/-- `urlunparse`-style rendering of a parsed URL. -/
def geturl (u : Url) : Str :=
  (if u.scheme ≠ [] then u.scheme ++ [':'] else []) ++
  (if u.netloc ≠ [] then '/' :: '/' :: u.netloc else []) ++
  u.path ++
  (if u.query ≠ [] then '?' :: u.query else []) ++
  (if u.fragment ≠ [] then '#' :: u.fragment else [])

/-- `o._replace(fragment="")`. -/
def stripFrag (u : Url) : Url := { u with fragment := [] }

/-- `f"{parsed_uri.scheme}://{parsed_uri.netloc}/"` (the per-seed scope
root). -/
def rootUrlOf (u : Url) : Str := u.scheme ++ ':' :: '/' :: '/' :: u.netloc ++ ['/']

inductive JVal where
  | s (v : Str)
  | null
deriving DecidableEq

/-- A manifest record: a Python dict in insertion order. -/
abbrev MRecord := List (Str × JVal)

/-- The rendered page, as observed through the browser session. -/
structure Page where
  markup : Str
  title : Str
  text : Str
  metas : List MetaTag
  dom : Elems
  hrefs : List (Option Url)

structure Cfg where
  skip_patterns : List Str
  one_page_only : Bool
  convert_to_absolute_url : Bool
  convert_to_markdown : Bool
  extract_anchors : Bool
  scraped_dir : Str
  login_url : Option Str
  username : Option Str
  password : Option Str
  totp_secret : Option Str
  world : Str → Page
  fetch : Str → Except Str (Nat × Str)
  md : Str → Except Str Str
  srcrepl : Str → Str → Str
  hash : Str → Str
  du : Str → Option PDate
  authOutcome : Bool

structure St where
  scraped_urls : List Str
  content_hashes : List Str
  metadata : List MRecord
  writes : List (Str × Str)
  authenticated : Bool
  navs : List Url
  authRuns : Nat
  authNavs : List Str
  checks : List Str
  mats : List Str
  dups : List Url
  recUrls : List Url
  writeUrls : List Url
  fetches : List Str
  pageWrites : List Str
  pageRecs : List Str

def initSt : St :=
  { scraped_urls := [], content_hashes := [], metadata := [], writes := [],
    authenticated := false, navs := [], authRuns := 0, authNavs := [],
    checks := [], mats := [], dups := [], recUrls := [], writeUrls := [],
    fetches := [], pageWrites := [], pageRecs := [] }

/-- `authenticate` (source lines 297-530): short-circuit when no login
URL is configured; fail on missing credentials; otherwise the whole
selenium form interaction plus the URL success heuristic is the oracle
`cfg.authOutcome`, and `self.authenticated = True` is set only in the
success branch, exactly as in the source. -/
def authenticate (cfg : Cfg) (st : St) : Bool × St :=
  let st := { st with authRuns := st.authRuns + 1 }
  match cfg.login_url with
  | none => (true, st)
  | some lurl =>
      if cfg.username.isNone ∨ cfg.password.isNone ∨ cfg.totp_secret.isNone then
        (false, st)
      else
        let st := { st with authNavs := st.authNavs ++ [lurl] }
        if cfg.authOutcome then (true, { st with authenticated := true })
        else (false, st)

/-- `navigate` (source lines 593-599): authenticate if not yet
authenticated and a login URL is configured (the failure return value is
only logged), then `driver.get(target)`. -/
def navigate (cfg : Cfg) (u : Url) (st : St) : St :=
  let st :=
    if ¬ st.authenticated ∧ cfg.login_url.isSome then (authenticate cfg st).2
    else st
  { st with navs := st.navs ++ [u] }

/-- Python `str.split(sep)` for a single-character separator. -/
def pySplit (sep : Char) : Str → List Str
  | [] => [[]]
  | c :: rest =>
      let r := pySplit sep rest
      if c = sep then [] :: r
      else
        match r with
        | h :: t => (c :: h) :: t
        | [] => [[c]]

/-- `os.path.splitext` on a slash-free file name: split at the last dot,
unless every character before that dot is itself a dot. -/
def splitext (s : Str) : Str × Str :=
  match (s.reverse.findIdx? (fun c => c = '.')).map (fun k => s.length - 1 - k) with
  | none => (s, [])
  | some i =>
      if (s.take i).any (fun c => c ≠ '.') then (s.take i, s.drop i)
      else (s, [])

def endsWithL (s p : Str) : Bool := beginsWith s.reverse p.reverse

/-- `re.search(r'/<marker>/([^/]+)/', url)`: at the leftmost position
where `marker` (which carries its surrounding slashes) occurs, capture
the following nonempty run of non-slash characters when it is closed by
a slash. -/
def segAfterAt (marker : Str) (s : Str) : Option Str :=
  if beginsWith s marker then
    let r := s.drop marker.length
    let t := r.takeWhile (fun x => x ≠ '/')
    if t ≠ [] ∧ (r.drop t.length).head? = some '/' then some t else none
  else none

def segAfter (marker : Str) : Str → Option Str
  | [] => none
  | c :: rest =>
      match segAfterAt marker (c :: rest) with
      | some t => some t
      | none => segAfter marker rest

def optStr : Option Str → JVal
  | some s => .s s
  | none => .null

/-- The record appended for a non-page (binary) resource (source lines
768-777): empty title, `anchor` only when a fragment is present, and a
`last_updated` field that is always null. -/
def binRecord (urlen : Url) (fname doc_type : Str) : MRecord :=
  [("title".toList, .s []), ("url".toList, .s (geturl urlen)),
   ("file_name".toList, .s fname), ("doc_type".toList, .s doc_type)] ++
  (if urlen.fragment ≠ [] then [("anchor".toList, .s urlen.fragment)] else []) ++
  [("last_updated".toList, .null)]

/-- The record appended for a page resource (source lines 871-913): note
that the extracted date is stored under the key `date`, and the
`person`/`tjeneste`/`produkt` fields are extracted only for
`.../index.html` targets. -/
def pageRecord (title : Str) (urlen : Url) (fname doc_type : Str)
    (lastUpdated : Option Str) (urlenNFStr : Str) : MRecord :=
  [("title".toList, .s title), ("url".toList, .s (geturl urlen)),
   ("file_name".toList, .s fname), ("doc_type".toList, .s doc_type),
   ("date".toList, optStr lastUpdated)] ++
  (if urlen.fragment ≠ [] then [("anchor".toList, .s urlen.fragment)] else []) ++
  (if endsWithL urlenNFStr "/index.html".toList then
    [("person".toList, optStr (segAfter "/person/".toList urlenNFStr)),
     ("tjeneste".toList, optStr (segAfter "/tjeneste/".toList urlenNFStr)),
     ("produkt".toList, optStr (segAfter "/produkt/".toList urlenNFStr))]
  else
    [("person".toList, .null), ("tjeneste".toList, .null), ("produkt".toList, .null)])

/-! Named state transitions of the crawl (each is one side-effect site
of `_scrape_site`; the ghost lists record the event). -/

/-- `self.scraped_urls[key] = True` for each key in `s`. -/
def stMark (s : List Str) (st : St) : St :=
  { st with scraped_urls := st.scraped_urls ++ s }

/-- One `requests.get` call (ghost event). -/
def stFetch (s : Str) (st : St) : St := { st with fetches := st.fetches ++ [s] }

/-- The binary branch's file write plus metadata append. -/
def stBinApp (u : Url) (pfn fn ct dt : Str) (st : St) : St :=
  { st with writes := st.writes ++ [(pfn, ct)],
            writeUrls := st.writeUrls ++ [u],
            metadata := st.metadata ++ [binRecord u fn dt],
            recUrls := st.recUrls ++ [u] }

/-- The duplicate-content branch: record the dedup check (ghost), mark
the target visited, skip. -/
def stDup (u : Url) (hsh : Str) (st : St) : St :=
  { st with checks := st.checks ++ [hsh],
            scraped_urls := st.scraped_urls ++ [geturl u],
            dups := st.dups ++ [u] }

/-- The first-occurrence branch: record the dedup check (ghost) and
`self.content_hashes[hash1] = True`. -/
def stCM (hsh : Str) (st : St) : St :=
  { st with checks := st.checks ++ [hsh],
            content_hashes := st.content_hashes ++ [hsh],
            mats := st.mats ++ [hsh] }

/-- A page file write. -/
def stPW (fn ct : Str) (u : Url) (hsh : Str) (st : St) : St :=
  { st with writes := st.writes ++ [(fn, ct)],
            writeUrls := st.writeUrls ++ [u],
            pageWrites := st.pageWrites ++ [hsh] }

/-- A page metadata append. -/
def stPR (r : MRecord) (u : Url) (hsh : Str) (st : St) : St :=
  { st with metadata := st.metadata ++ [r],
            recUrls := st.recUrls ++ [u],
            pageRecs := st.pageRecs ++ [hsh] }

def imageExts : List Str := [".png".toList, ".jpg".toList, ".jpeg".toList, ".gif".toList]

/-- The `for href in hrefs` recursion loop at the end of `_scrape_site`
(source lines 918-968), parameterized by the recursive call `recurse`
(the per-link `except` clause of the source catches real-world
exceptions, which the total model does not produce). -/
def linkLoop (recurse : Url → St → St) (cfg : Cfg) (urlenNF : Url) (rooturl : Str) :
    List (Option Url) → St → St
  | [], st => st
  | none :: rest, st => linkLoop recurse cfg urlenNF rooturl rest st
  | some href0 :: rest, st =>
      let href := if beginsWith (geturl href0) ['#'] then
          { urlenNF with fragment := href0.fragment }
        else href0
      let hwf := geturl href
      let hnfU := stripFrag href
      let hnf := geturl hnfU
      if hnf = [] then
        linkLoop recurse cfg urlenNF rooturl rest (stMark [hwf] st)
      else if ¬ beginsWith hnf rooturl then
        linkLoop recurse cfg urlenNF rooturl rest (stMark [hwf] st)
      else if hnf ∈ st.scraped_urls then
        if href.fragment ≠ [] ∧ cfg.extract_anchors then
          if hwf ∉ st.scraped_urls then
            linkLoop recurse cfg urlenNF rooturl rest (recurse href (stMark [hwf] st))
          else linkLoop recurse cfg urlenNF rooturl rest st
        else
          linkLoop recurse cfg urlenNF rooturl rest (stMark [hwf] st)
      else
        let st := stMark [hnf, hwf] st
        let st := if cfg.extract_anchors ∧ href.fragment ≠ [] then recurse href st
                  else recurse hnfU st
        linkLoop recurse cfg urlenNF rooturl rest st

/-! The pure per-target computations of `_scrape_site` (source lines
714-760): path split, `os.path.splitext`, extension defaulting, the
markdown retarget, `doc_type`, and the derived output file name. -/

/-- `parts = o.path.split('/'); parts.pop()` (the `partition('#')` of the
source is a no-op since `urlparse` never leaves `#` in the path). -/
def fileParts (u : Url) : List Str := (pySplit '/' u.path).dropLast

/-- `file_name, file_extension = os.path.splitext(parts[-1])`. -/
def fileBase (u : Url) : Str := (splitext ((pySplit '/' u.path).getLastD [])).1

def fileExt (u : Url) : Str := (splitext ((pySplit '/' u.path).getLastD [])).2

/-- `original_extension = file_extension if file_extension else ".html"`. -/
def origExt (u : Url) : Str := if fileExt u = [] then ".html".toList else fileExt u

/-- `doc_type = original_extension.lstrip('.')`. -/
def docType (u : Url) : Str := (origExt u).dropWhile (fun c => c = '.')

/-- The extension after defaulting empty to `.html` and retargeting to
`.md` when markdown conversion is requested. -/
def finalExt (cfg : Cfg) (u : Url) : Str :=
  let fe := if fileExt u = [] then ".html".toList else fileExt u
  if cfg.convert_to_markdown ∧ fe = ".html".toList then ".md".toList else fe

/-- `file_name_with_anchor` (source lines 747-757): sanitized
`netloc + "__".join(parts) + "--" + file_name`, an anchor suffix in
anchor mode, then the extension. -/
def outName (cfg : Cfg) (u : Url) : Str :=
  let base := sanitize_filename
    (u.netloc ++ List.intercalate "__".toList (fileParts u) ++ "--".toList ++ fileBase u)
  if u.fragment ≠ [] ∧ cfg.extract_anchors then
    base ++ '_' :: sanitize_filename u.fragment ++ finalExt cfg u
  else base ++ finalExt cfg u

/-- The non-page branch (source lines 762-784): one plain HTTP fetch of
the fragment-free URL; on a 2xx status write the body and append the
binary record; on any other status or an exception change nothing and
return. -/
def binaryVisit (cfg : Cfg) (urlen : Url) (st : St) : St :=
  match cfg.fetch (geturl (stripFrag urlen)) with
  | .error _ => stFetch (geturl (stripFrag urlen)) st
  | .ok sc =>
      if 200 ≤ sc.1 ∧ sc.1 ≤ 299 then
        stBinApp urlen (cfg.scraped_dir ++ '/' :: outName cfg urlen) (outName cfg urlen)
          sc.2 (docType urlen) (stFetch (geturl (stripFrag urlen)) st)
      else stFetch (geturl (stripFrag urlen)) st

/-- The possibly-sliced markup (source lines 831-843): in anchor mode
with a fragment, replace the markup by the anchor slice, falling back to
the full page when the anchor is not found. -/
def pageHtml (cfg : Cfg) (u : Url) (page : Page) : Str :=
  if u.fragment ≠ [] ∧ cfg.extract_anchors then
    match extract_anchor_content page.dom u.fragment with
    | some c => c
    | none => page.markup
  else page.markup

/-- The post-dedup page materialization (source lines 852-913): record
the fingerprint, optionally rewrite relative URLs, write the file (a
markdown-conversion failure writes nothing), and append the page record
(which stores the extracted date under the key `date`). -/
def pageMaterialize (cfg : Cfg) (urlen : Url) (rooturl : Str) (hsh : Str) (page : Page)
    (st : St) : St :=
  let st := stCM hsh st
  let html2 :=
    if cfg.convert_to_absolute_url then cfg.srcrepl rooturl (pageHtml cfg urlen page)
    else pageHtml cfg urlen page
  let st :=
    if cfg.convert_to_markdown then
      match cfg.md html2 with
      | .ok mdc => stPW (cfg.scraped_dir ++ '/' :: outName cfg urlen) mdc urlen hsh st
      | .error _ => st
    else stPW (cfg.scraped_dir ++ '/' :: outName cfg urlen) html2 urlen hsh st
  stPR
    (pageRecord page.title urlen (outName cfg urlen) (docType urlen)
      (extract_last_updated_date cfg.du page.text page.metas) (geturl (stripFrag urlen)))
    urlen hsh st

/-- The page branch (source lines 786-968): render, fingerprint the
possibly-sliced markup, skip duplicates (marking the target visited),
otherwise materialize, then recurse into the discovered links unless in
single-page mode.  (The source appends the fingerprint check before
testing membership; the membership test does not depend on the ghost
`checks` list, so the check event is recorded inside `stDup`/`stCM`.) -/
def pageVisit (cfg : Cfg) (recurse : Url → St → St) (urlen : Url) (rooturl : Str)
    (st : St) : St :=
  let page := cfg.world (geturl urlen)
  let hsh := cfg.hash (pageHtml cfg urlen page)
  if hsh ∈ st.content_hashes then stDup urlen hsh st
  else
    let st := pageMaterialize cfg urlen rooturl hsh page st
    if cfg.one_page_only then st
    else linkLoop recurse cfg (stripFrag urlen) rooturl page.hrefs st

/-- `_scrape_site` (source lines 702-975), on recursion fuel (the source
recursion is bounded only by `sys.setrecursionlimit(10000)`; every
theorem below holds for all fuel values): skip-pattern check, navigate,
extension classification (images skipped, non-page extensions fetched
plainly, pages rendered and recursed). -/
def scrapeSite (cfg : Cfg) : Nat → Url → Str → St → St
  | 0, _, _, st => st
  | fuel + 1, urlen, rooturl, st =>
    if cfg.skip_patterns.any (fun p => containsSub (geturl urlen) p) then st
    else
      let st := navigate cfg urlen st
      if fileExt urlen ∈ imageExts then st
      else if finalExt cfg urlen ∉ [".html".toList, ".md".toList] then binaryVisit cfg urlen st
      else pageVisit cfg (fun v s => scrapeSite cfg fuel v rooturl s) urlen rooturl st

/-- `scrape_sites` (source lines 691-698): crawl each seed with its own
scope root over the cumulative state (writing the manifest serializes
`st.metadata` and is outside the model). -/
def scrapeSites (cfg : Cfg) (fuel : Nat) : List Url → St → St
  | [], st => st
  | u :: rest, st => scrapeSites cfg fuel rest (scrapeSite cfg fuel u (rootUrlOf u) st)

/-! ### A preservation frame for crawl-state invariants

`linkLoop`, `binaryVisit`, `pageVisit`, `scrapeSite` and `scrapeSites`
preserve any predicate `P` that is closed under the named state
transitions they perform. -/

theorem linkLoop_pres {P : St → Prop} {recurse : Url → St → St} {cfg : Cfg}
    {urlenNF : Url} {rooturl : Str}
    (hrec : ∀ v st, P st → P (recurse v st))
    (hmark : ∀ s st, P st → P (stMark s st)) :
    ∀ (hrefs : List (Option Url)) (st : St), P st →
      P (linkLoop recurse cfg urlenNF rooturl hrefs st)
  | [], _, h => h
  | none :: rest, st, h => linkLoop_pres hrec hmark rest st h
  | some href0 :: rest, st, h => by
      rw [linkLoop]
      dsimp only
      split_ifs
      all_goals
        first
        | exact linkLoop_pres hrec hmark rest _ h
        | exact linkLoop_pres hrec hmark rest _ (hmark _ st h)
        | exact linkLoop_pres hrec hmark rest _ (hrec _ _ (hmark _ st h))

theorem binaryVisit_pres {P : St → Prop} {cfg : Cfg} {urlen : Url}
    (hfetch : ∀ s st, P st → P (stFetch s st))
    (hbin : ∀ u pfn fn ct dt st, P st → P (stBinApp u pfn fn ct dt st)) :
    ∀ st, P st → P (binaryVisit cfg urlen st) := by
  intro st h
  unfold binaryVisit
  split
  · exact hfetch _ _ h
  · split_ifs
    · exact hbin _ _ _ _ _ _ (hfetch _ _ h)
    · exact hfetch _ _ h

theorem pageVisit_pres {P : St → Prop} {cfg : Cfg} {recurse : Url → St → St}
    {urlen : Url} {rooturl : Str}
    (hrec : ∀ v st, P st → P (recurse v st))
    (hmark : ∀ s st, P st → P (stMark s st))
    (hdup : ∀ u hsh st, hsh ∈ st.content_hashes → P st → P (stDup u hsh st))
    (hmat : ∀ u rt hsh page st, hsh ∉ st.content_hashes → P st →
      P (pageMaterialize cfg u rt hsh page st)) :
    ∀ st, P st → P (pageVisit cfg recurse urlen rooturl st) := by
  intro st h
  unfold pageVisit
  dsimp only
  split_ifs with hmem hone
  · exact hdup _ _ _ hmem h
  · exact hmat _ _ _ _ _ hmem h
  · exact linkLoop_pres hrec hmark _ _ (hmat _ _ _ _ _ hmem h)

theorem scrapeSite_pres (cfg : Cfg) (P : St → Prop)
    (hnav : ∀ u st, P st → P (navigate cfg u st))
    (hmark : ∀ s st, P st → P (stMark s st))
    (hfetch : ∀ s st, P st → P (stFetch s st))
    (hbin : ∀ u pfn fn ct dt st, P st → P (stBinApp u pfn fn ct dt st))
    (hdup : ∀ u hsh st, hsh ∈ st.content_hashes → P st → P (stDup u hsh st))
    (hmat : ∀ u rt hsh page st, hsh ∉ st.content_hashes → P st →
      P (pageMaterialize cfg u rt hsh page st)) :
    ∀ (fuel : Nat) (u : Url) (root : Str) (st : St), P st →
      P (scrapeSite cfg fuel u root st)
  | 0, _, _, _, h => h
  | fuel + 1, u, root, st, h => by
      rw [scrapeSite]
      dsimp only
      split_ifs
      all_goals
        first
        | exact h
        | exact hnav _ _ h
        | exact binaryVisit_pres hfetch hbin _ (hnav _ _ h)
        | exact pageVisit_pres
            (fun v s hs =>
              scrapeSite_pres cfg P hnav hmark hfetch hbin hdup hmat fuel v root s hs)
            hmark hdup hmat _ (hnav _ _ h)

theorem scrapeSites_pres (cfg : Cfg) (P : St → Prop)
    (hnav : ∀ u st, P st → P (navigate cfg u st))
    (hmark : ∀ s st, P st → P (stMark s st))
    (hfetch : ∀ s st, P st → P (stFetch s st))
    (hbin : ∀ u pfn fn ct dt st, P st → P (stBinApp u pfn fn ct dt st))
    (hdup : ∀ u hsh st, hsh ∈ st.content_hashes → P st → P (stDup u hsh st))
    (hmat : ∀ u rt hsh page st, hsh ∉ st.content_hashes → P st →
      P (pageMaterialize cfg u rt hsh page st)) :
    ∀ (fuel : Nat) (seeds : List Url) (st : St), P st →
      P (scrapeSites cfg fuel seeds st)
  | _, [], _, h => h
  | fuel, u :: rest, st, h =>
      scrapeSites_pres cfg P hnav hmark hfetch hbin hdup hmat fuel rest _
        (scrapeSite_pres cfg P hnav hmark hfetch hbin hdup hmat fuel u (rootUrlOf u) st h)

/-- The default way to discharge the materialize-level hypothesis of the
frame: closure under the three individual transitions suffices. -/
theorem pageMaterialize_pres {P : St → Prop} {cfg : Cfg}
    (hcm : ∀ hsh st, hsh ∉ st.content_hashes → P st → P (stCM hsh st))
    (hpw : ∀ fn ct u hsh st, P st → P (stPW fn ct u hsh st))
    (hpr : ∀ title u fn dt text metas unf hsh st, P st →
      P (stPR (pageRecord title u fn dt (extract_last_updated_date cfg.du text metas) unf)
          u hsh st)) :
    ∀ (u : Url) (rt : Str) (hsh : Str) (page : Page) (st : St),
      hsh ∉ st.content_hashes → P st → P (pageMaterialize cfg u rt hsh page st) := by
  intro u rt hsh page st hnot h
  unfold pageMaterialize
  dsimp only
  apply hpr
  by_cases hm : cfg.convert_to_markdown = true
  · rw [if_pos hm]
    split
    · exact hpw _ _ _ _ _ (hcm _ _ hnot h)
    · exact hcm _ _ hnot h
  · rw [if_neg hm]
    exact hpw _ _ _ _ _ (hcm _ _ hnot h)

/-! ### C3 — the authentication procedure -/

/-- Either authentication has never run, or it has run at most once and
succeeded. -/
def authInv (st : St) : Prop :=
  (st.authRuns = 0 ∧ st.authenticated = false) ∨
  (st.authRuns ≤ 1 ∧ st.authenticated = true)

theorem navigate_authInv {cfg : Cfg}
    (hu : cfg.username.isSome = true) (hp : cfg.password.isSome = true)
    (ht : cfg.totp_secret.isSome = true) (hout : cfg.authOutcome = true) :
    ∀ u st, authInv st → authInv (navigate cfg u st) := by
  intro u st h
  unfold navigate
  by_cases ha : st.authenticated = true
  · rw [if_neg (fun hc => hc.1 ha)]
    exact h
  · have haf : st.authenticated = false := by simpa using ha
    rcases h with ⟨h0, _⟩ | ⟨_, h1⟩
    · by_cases hl : cfg.login_url.isSome = true
      · rw [if_pos ⟨ha, hl⟩]
        unfold authenticate
        obtain ⟨lurl, hlu⟩ := Option.isSome_iff_exists.mp hl
        obtain ⟨uv, huv⟩ := Option.isSome_iff_exists.mp hu
        obtain ⟨pv, hpv⟩ := Option.isSome_iff_exists.mp hp
        obtain ⟨tv, htv⟩ := Option.isSome_iff_exists.mp ht
        rw [hlu]
        dsimp only
        rw [if_neg (by simp [huv, hpv, htv]), if_pos hout]
        right
        constructor
        · show st.authRuns + 1 ≤ 1
          omega
        · rfl
      · rw [if_neg (fun hc => hl hc.2)]
        left
        exact ⟨h0, haf⟩
    · exact absurd h1 ha

/-- C3 counterexample: with a configured login URL, present credentials
and a failing authentication outcome, a crawl over a two-page site
invokes the authentication procedure once per navigation — twice in
total — because `self.authenticated` is set only on success, and
`navigate` re-invokes `authenticate` whenever it is still false. -/
theorem c3_counterexample :
    (scrapeSites
      { skip_patterns := [], one_page_only := false, convert_to_absolute_url := false,
        convert_to_markdown := false, extract_anchors := false,
        scraped_dir := "d".toList,
        login_url := some "https://h/login".toList,
        username := some "u".toList, password := some "p".toList,
        totp_secret := some "s".toList,
        world := fun u =>
          if u = "https://h/a.html".toList then
            ⟨"AAA".toList, [], [], [], .nil,
              [some ⟨"https".toList, "h".toList, "/b.html".toList, [], []⟩]⟩
          else ⟨"BBB".toList, [], [], [], .nil, []⟩,
        fetch := fun _ => Except.error [], md := fun s => Except.ok s,
        srcrepl := fun _ c => c, hash := fun s => s, du := fun _ => none,
        authOutcome := false }
      3 [⟨"https".toList, "h".toList, "/a.html".toList, [], []⟩] initSt).authRuns = 2 := by
  decide

/-- C3 (amended): when the authentication outcome is success
(`Authenticated`), the procedure runs at most once per crawl run; a
`Failed` outcome leaves `self.authenticated` false, so later navigations
re-invoke it (see the counterexample). -/
theorem c3_auth_at_most_once_on_success (cfg : Cfg) (fuel : Nat) (seeds : List Url)
    (hu : cfg.username.isSome = true) (hp : cfg.password.isSome = true)
    (ht : cfg.totp_secret.isSome = true) (hout : cfg.authOutcome = true) :
    (scrapeSites cfg fuel seeds initSt).authRuns ≤ 1 := by
  have h := scrapeSites_pres cfg authInv (navigate_authInv hu hp ht hout)
    (fun _ _ h => h) (fun _ _ h => h) (fun _ _ _ _ _ _ h => h)
    (fun _ _ _ _ h => h)
    (fun u rt hsh page st hn h =>
      @pageMaterialize_pres authInv cfg
        (fun _ _ _ h => h) (fun _ _ _ _ _ h => h) (fun _ _ _ _ _ _ _ _ _ h => h)
        u rt hsh page st hn h)
    fuel seeds initSt (Or.inl ⟨rfl, rfl⟩)
  rcases h with ⟨h0, _⟩ | ⟨h1, _⟩
  · omega
  · exact h1

/-- Witness for the amended C3 theorem at a concrete successful-login
configuration. -/
theorem c3_auth_at_most_once_witness :
    (scrapeSites
      { skip_patterns := [], one_page_only := false, convert_to_absolute_url := false,
        convert_to_markdown := false, extract_anchors := false,
        scraped_dir := "d".toList,
        login_url := some "https://h/login".toList,
        username := some "u".toList, password := some "p".toList,
        totp_secret := some "s".toList,
        world := fun _ => ⟨"AAA".toList, [], [], [], .nil, []⟩,
        fetch := fun _ => Except.error [], md := fun s => Except.ok s,
        srcrepl := fun _ c => c, hash := fun s => s, du := fun _ => none,
        authOutcome := true }
      3 [⟨"https".toList, "h".toList, "/a.html".toList, [], []⟩] initSt).authRuns ≤ 1 :=
  c3_auth_at_most_once_on_success _ 3 _ rfl rfl rfl rfl

/-! ### Shape of the extractor's output (supports C4) -/

theorem digitChar_isDigit {n : Nat} (h : n < 10) : isDigitC (Nat.digitChar n) = true := by
  interval_cases n <;> decide

theorem natDigitsAux_digits : ∀ (fuel n : Nat), ∀ c ∈ natDigitsAux fuel n, isDigitC c = true
  | 0, n, c, hc => by simp [natDigitsAux] at hc
  | fuel + 1, n, c, hc => by
      unfold natDigitsAux at hc
      split_ifs at hc with h
      · have hcd : c = Nat.digitChar n := by simpa using hc
        subst hcd
        exact digitChar_isDigit h
      · rcases List.mem_append.mp hc with h1 | h1
        · exact natDigitsAux_digits fuel _ c h1
        · have hcd : c = Nat.digitChar (n % 10) := by simpa using h1
          subst hcd
          exact digitChar_isDigit (Nat.mod_lt _ (by omega))

theorem natDigitsAux_len : ∀ (fuel n k : Nat), n < 10 ^ k → 0 < k →
    (natDigitsAux fuel n).length ≤ k
  | 0, _, _, _, _ => by simp [natDigitsAux]
  | fuel + 1, n, k, hn, hk => by
      unfold natDigitsAux
      split_ifs with h
      · simpa using hk
      · have hk2 : 2 ≤ k := by
          rcases Nat.lt_or_ge k 2 with hlt | hge
          · exfalso
            have hk1 : k = 1 := by omega
            subst hk1
            simp at hn
            omega
          · exact hge
        have hpow : (10 : Nat) ^ k = 10 ^ (k - 1) * 10 := by
          conv_lhs => rw [show k = (k - 1) + 1 by omega]
          rw [pow_succ]
        have hdiv : n / 10 < 10 ^ (k - 1) := Nat.div_lt_of_lt_mul (by omega)
        have := natDigitsAux_len fuel (n / 10) (k - 1) hdiv (by omega)
        simp only [List.length_append, List.length_cons, List.length_nil]
        omega

theorem natDigits_digits (n : Nat) : ∀ c ∈ natDigits n, isDigitC c = true :=
  natDigitsAux_digits _ _

theorem natDigits_len {n k : Nat} (h : n < 10 ^ k) (hk : 0 < k) :
    (natDigits n).length ≤ k := natDigitsAux_len _ _ _ h hk

theorem zfillTo_length {k : Nat} {s : Str} (h : s.length ≤ k) :
    (zfillTo k s).length = k := by
  simp only [zfillTo, List.length_append, List.length_replicate]
  omega

theorem zfillTo_digits {k : Nat} {s : Str} (hd : ∀ c ∈ s, isDigitC c = true) :
    ∀ c ∈ zfillTo k s, isDigitC c = true := by
  intro c hc
  rcases List.mem_append.mp hc with h | h
  · have : c = '0' := List.eq_of_mem_replicate h
    subst this
    decide
  · exact hd c h

theorem exists_len2 {a : Str} (h : a.length = 2) : ∃ x1 x2, a = [x1, x2] := by
  cases a with
  | nil => simp at h
  | cons x1 t =>
      cases t with
      | nil => simp at h
      | cons x2 t2 =>
          cases t2 with
          | nil => exact ⟨x1, x2, rfl⟩
          | cons x3 t3 => simp at h

theorem exists_len4 {a : Str} (h : a.length = 4) : ∃ x1 x2 x3 x4, a = [x1, x2, x3, x4] := by
  cases a with
  | nil => simp at h
  | cons x1 t =>
      cases t with
      | nil => simp at h
      | cons x2 t2 =>
          obtain ⟨x3, x4, ht⟩ := @exists_len2 t2 (by simpa using h)
          exact ⟨x1, x2, x3, x4, by rw [ht]⟩

theorem isISOish_build {a b c : Str} (ha : a.length = 4) (hb : b.length = 2)
    (hc : c.length = 2)
    (hda : ∀ x ∈ a, isDigitC x = true) (hdb : ∀ x ∈ b, isDigitC x = true)
    (hdc : ∀ x ∈ c, isDigitC x = true) :
    isISOish (a ++ '-' :: b ++ '-' :: c) = true := by
  obtain ⟨a1, a2, a3, a4, rfl⟩ := exists_len4 ha
  obtain ⟨b1, b2, rfl⟩ := exists_len2 hb
  obtain ⟨c1, c2, rfl⟩ := exists_len2 hc
  show isISOish [a1, a2, a3, a4, '-', b1, b2, '-', c1, c2] = true
  simp [isISOish, hda a1 (by simp), hda a2 (by simp), hda a3 (by simp), hda a4 (by simp),
    hdb b1 (by simp), hdb b2 (by simp), hdc c1 (by simp), hdc c2 (by simp)]

theorem formatPDate_isISOish {d : PDate} (hy : d.year ≤ 9999) (hm : d.month ≤ 99)
    (hd : d.day ≤ 99) : isISOish (formatPDate d) = true := by
  unfold formatPDate
  exact isISOish_build
    (zfillTo_length (natDigits_len (show d.year < 10 ^ 4 by omega) (by omega)))
    (zfillTo_length (natDigits_len (show d.month < 10 ^ 2 by omega) (by omega)))
    (zfillTo_length (natDigits_len (show d.day < 10 ^ 2 by omega) (by omega)))
    (zfillTo_digits (natDigits_digits _)) (zfillTo_digits (natDigits_digits _))
    (zfillTo_digits (natDigits_digits _))

theorem validISO_shape {s : Str} (h : validISO s = true) : isISOish s = true :=
  (Bool.and_eq_true_iff.mp h).1

theorem processMatch_shape {du : Str → Option PDate} {g0 : Str} {groups : List Str} {r : Str}
    (hdu : ∀ s d, du s = some d → d.year ≤ 9999 ∧ d.month ≤ 99 ∧ d.day ≤ 99)
    (h : processMatch du g0 groups = some r) : isISOish r = true := by
  unfold processMatch at h
  dsimp only at h
  repeat' split at h
  all_goals
    first
    | exact Option.noConfusion h
    | (injection h with h
       subst h
       rename_i hv
       apply validISO_shape
       simpa [List.headD_eq_head?_getD] using hv)
    | (injection h with h
       subst h
       rename_i pd heq
       obtain ⟨hy, hm, hd⟩ := hdu _ _ heq
       exact formatPDate_isISOish hy hm hd)

theorem patLoop_shape {du : Str → Option PDate}
    (hdu : ∀ s d, du s = some d → d.year ≤ 9999 ∧ d.month ≤ 99 ∧ d.day ≤ 99) :
    ∀ (ps : List (Str → Option (Str × List Str))) (text : Str) (r : Str),
      patLoop du ps text = some r → isISOish r = true
  | [], _, _, h => by simp [patLoop] at h
  | p :: ps, text, r, h => by
      unfold patLoop at h
      split at h
      · split at h
        · next d heq =>
            cases h
            exact processMatch_shape hdu heq
        · exact patLoop_shape hdu ps text r h
      · exact patLoop_shape hdu ps text r h

theorem metaLoop_shape {du : Str → Option PDate}
    (hdu : ∀ s d, du s = some d → d.year ≤ 9999 ∧ d.month ≤ 99 ∧ d.day ≤ 99) :
    ∀ (cands : List (Option MetaTag)) (r : Str),
      metaLoop du cands = some r → isISOish r = true
  | [], _, h => by simp [metaLoop] at h
  | none :: rest, r, h => metaLoop_shape hdu rest r h
  | some t :: rest, r, h => by
      unfold metaLoop at h
      split at h
      · split_ifs at h with he
        · exact metaLoop_shape hdu rest r h
        · split at h
          · next pd heq =>
              cases h
              obtain ⟨hy, hm, hd⟩ := hdu _ _ heq
              exact formatPDate_isISOish hy hm hd
          · exact metaLoop_shape hdu rest r h
      · exact metaLoop_shape hdu rest r h

/-- Whatever `extract_last_updated_date` returns is either nothing or a
`YYYY-MM-DD`-shaped string (given that the generic date parser returns
dates within `datetime`'s ranges). -/
theorem extract_shape {du : Str → Option PDate} {text : Str} {metas : List MetaTag} {r : Str}
    (hdu : ∀ s d, du s = some d → d.year ≤ 9999 ∧ d.month ≤ 99 ∧ d.day ≤ 99)
    (h : extract_last_updated_date du text metas = some r) : isISOish r = true := by
  unfold extract_last_updated_date at h
  split at h
  · next d heq =>
      cases h
      exact patLoop_shape hdu _ _ _ heq
  · exact metaLoop_shape hdu _ _ h

/-- `navigate` touches only the authentication fields and the navigation
log. -/
theorem navigate_keeps (cfg : Cfg) (u : Url) (st : St) :
    (navigate cfg u st).metadata = st.metadata ∧
    (navigate cfg u st).scraped_urls = st.scraped_urls ∧
    (navigate cfg u st).content_hashes = st.content_hashes ∧
    (navigate cfg u st).checks = st.checks ∧
    (navigate cfg u st).mats = st.mats ∧
    (navigate cfg u st).dups = st.dups ∧
    (navigate cfg u st).pageRecs = st.pageRecs ∧
    (navigate cfg u st).pageWrites = st.pageWrites ∧
    (navigate cfg u st).writes = st.writes ∧
    (navigate cfg u st).recUrls = st.recUrls ∧
    (navigate cfg u st).writeUrls = st.writeUrls ∧
    (navigate cfg u st).fetches = st.fetches := by
  unfold navigate authenticate
  repeat' split
  all_goals simp

/-! ### C4 — manifest record fields -/

/-- A record is well-dated: it carries `last_updated` with a null value
(the binary branch), or it carries the extracted date under the key
`date` (null or a `YYYY-MM-DD`-shaped string). -/
def GoodRec (r : MRecord) : Prop :=
  ("last_updated".toList, JVal.null) ∈ r ∨
  ∃ v, ("date".toList, v) ∈ r ∧
    (v = JVal.null ∨ ∃ s, v = JVal.s s ∧ isISOish s = true)

def recsInv (st : St) : Prop := ∀ r ∈ st.metadata, GoodRec r

/-- A minimal single-page configuration whose crawl appends exactly one
page record (shared by several concrete instantiations below). -/
def onePageCfg : Cfg :=
  { skip_patterns := [], one_page_only := true, convert_to_absolute_url := false,
    convert_to_markdown := false, extract_anchors := false,
    scraped_dir := "d".toList,
    login_url := none, username := none, password := none, totp_secret := none,
    world := fun _ => ⟨"AAA".toList, "t".toList, [], [], .nil, []⟩,
    fetch := fun _ => Except.error [], md := fun s => Except.ok s,
    srcrepl := fun _ c => c, hash := fun s => s, du := fun _ => none,
    authOutcome := false }

def seedA : Url := ⟨"https".toList, "h".toList, "/a.html".toList, [], []⟩

/-- C4 counterexample: the record appended for a successfully
materialized page resource does not carry a field named `last_updated`
at all — the extracted date is stored under the key `date` (here null). -/
theorem c4_counterexample :
    (scrapeSites onePageCfg 2 [seedA] initSt).metadata.length = 1 ∧
    ((scrapeSites onePageCfg 2 [seedA] initSt).metadata.headD []).find?
        (fun p => p.1 = "last_updated".toList) = none ∧
    (((scrapeSites onePageCfg 2 [seedA] initSt).metadata.headD []).find?
        (fun p => p.1 = "date".toList)).map Prod.snd = some JVal.null := by
  refine ⟨?_, ?_, ?_⟩ <;> decide

/-- C4 (amended): every serialized record either carries `last_updated`
with value null (non-page resources) or carries the extracted date under
the field name `date`, whose value is null or an ISO `YYYY-MM-DD`-shaped
string.  (The hypothesis mirrors `datetime`'s field ranges for the
generic parser oracle.) -/
theorem c4_amended_record_fields (cfg : Cfg) (fuel : Nat) (seeds : List Url)
    (hdu : ∀ s d, cfg.du s = some d → d.year ≤ 9999 ∧ d.month ≤ 99 ∧ d.day ≤ 99) :
    ∀ r ∈ (scrapeSites cfg fuel seeds initSt).metadata, GoodRec r := by
  have hbin : ∀ u pfn fn ct dt st, recsInv st → recsInv (stBinApp u pfn fn ct dt st) := by
    intro u pfn fn ct dt st h r hr
    rcases List.mem_append.mp hr with h1 | h1
    · exact h r h1
    · have : r = binRecord u fn dt := by simpa using h1
      subst this
      left
      simp [binRecord]
  have hpr : ∀ title u fn dt text metas unf hsh st, recsInv st →
      recsInv (stPR (pageRecord title u fn dt
        (extract_last_updated_date cfg.du text metas) unf) u hsh st) := by
    intro title u fn dt text metas unf hsh st h r hr
    rcases List.mem_append.mp hr with h1 | h1
    · exact h r h1
    · have hrr : r = pageRecord title u fn dt
          (extract_last_updated_date cfg.du text metas) unf := by simpa using h1
      subst hrr
      right
      refine ⟨optStr (extract_last_updated_date cfg.du text metas), by simp [pageRecord], ?_⟩
      cases hx : extract_last_updated_date cfg.du text metas with
      | none => left; rfl
      | some s => exact Or.inr ⟨s, rfl, extract_shape hdu hx⟩
  exact scrapeSites_pres cfg recsInv
    (fun u st h => by
      intro r hr
      rw [(navigate_keeps cfg u st).1] at hr
      exact h r hr)
    (fun _ _ h => h) (fun _ _ h => h) hbin
    (fun _ _ _ _ h => h)
    (pageMaterialize_pres (fun _ _ _ h => h) (fun _ _ _ _ _ h => h) hpr)
    fuel seeds initSt (fun r hr => absurd hr (by simp [initSt]))

/-- Witness for the amended C4 theorem at the concrete single-page
configuration (whose parser oracle never returns a date). -/
theorem c4_amended_record_fields_witness :
    GoodRec ((scrapeSites onePageCfg 2 [seedA] initSt).metadata.headD []) :=
  c4_amended_record_fields onePageCfg 2 [seedA]
    (fun s d hsd => absurd hsd (by simp [onePageCfg]))
    ((scrapeSites onePageCfg 2 [seedA] initSt).metadata.headD []) (by decide)

/-! ### C1 — content deduplication -/

/-- The number of occurrences of `h` in `l`. -/
def countEq (h : Str) (l : List Str) : Nat := (l.filter (fun x => x = h)).length

theorem countEq_eq_one {l : List Str} {h : Str} (hn : l.Nodup) (hm : h ∈ l) :
    countEq h l = 1 := by
  induction l with
  | nil => simp at hm
  | cons a t ih =>
      obtain ⟨hat, hnt⟩ := List.nodup_cons.mp hn
      rcases List.mem_cons.mp hm with rfl | hm'
      · have hz : t.filter (fun x => x = h) = [] :=
          List.filter_eq_nil_iff.mpr (fun x hx => by
            simp only [decide_eq_true_eq]
            intro hxa
            exact hat (hxa ▸ hx))
        simp [countEq, List.filter_cons, hz]
      · have hah : ¬ a = h := fun hc => hat (hc ▸ hm')
        simp only [countEq, List.filter_cons, decide_eq_true_eq]
        rw [if_neg hah]
        exact ih hnt hm'

/-- A whole crawl run from the initial state. -/
def crawlRun (cfg : Cfg) (fuel : Nat) (seeds : List Url) : St :=
  scrapeSites cfg fuel seeds initSt

/-- The dedup lockstep invariant: the fingerprint table contains exactly
the materialized fingerprints; no fingerprint is materialized twice;
every dedup check either materialized or was skipped as a duplicate;
page records and page writes happen once per materialization; every
duplicate-skipped target has been marked visited. -/
def dedupInv (st : St) : Prop :=
  st.content_hashes = st.mats ∧
  st.mats.Nodup ∧
  (∀ h ∈ st.checks, h ∈ st.mats) ∧
  st.checks.length = st.mats.length + st.dups.length ∧
  st.pageRecs = st.mats ∧
  st.pageWrites = st.mats ∧
  (∀ u ∈ st.dups, geturl u ∈ st.scraped_urls)

theorem stMark_dedupInv (s : List Str) (st : St) (h : dedupInv st) :
    dedupInv (stMark s st) := by
  obtain ⟨h1, h2, h3, h4, h5, h6, h7⟩ := h
  exact ⟨h1, h2, h3, h4, h5, h6,
    fun u hu => List.mem_append_left _ (h7 u hu)⟩

theorem stDup_dedupInv (u : Url) (hsh : Str) (st : St)
    (hmem : hsh ∈ st.content_hashes) (h : dedupInv st) : dedupInv (stDup u hsh st) := by
  obtain ⟨h1, h2, h3, h4, h5, h6, h7⟩ := h
  unfold dedupInv stDup
  dsimp only
  refine ⟨h1, h2, ?_, ?_, h5, h6, ?_⟩
  · intro x hx
    rcases List.mem_append.mp hx with hx | hx
    · exact h3 x hx
    · have : x = hsh := by simpa using hx
      subst this
      rw [← h1]
      exact hmem
  · simp only [List.length_append, List.length_cons, List.length_nil]
    omega
  · intro v hv
    rcases List.mem_append.mp hv with hv | hv
    · exact List.mem_append_left _ (h7 v hv)
    · have : v = u := by simpa using hv
      subst this
      exact List.mem_append_right _ (by simp)

theorem combined_mat_dedupInv (r : MRecord) (u : Url) (fn ct : Str) (hsh : Str) (st : St)
    (hn : hsh ∉ st.content_hashes) (h : dedupInv st) :
    dedupInv (stPR r u hsh (stPW fn ct u hsh (stCM hsh st))) := by
  obtain ⟨h1, h2, h3, h4, h5, h6, h7⟩ := h
  have hnm : hsh ∉ st.mats := h1 ▸ hn
  unfold dedupInv stPR stPW stCM
  dsimp only
  refine ⟨by rw [h1], ?_, ?_, ?_, by rw [h5], by rw [h6], h7⟩
  · simp [List.nodup_append, h2, hnm]
  · intro x hx
    rcases List.mem_append.mp hx with hx | hx
    · exact List.mem_append_left _ (h3 x hx)
    · exact List.mem_append_right _ hx
  · simp only [List.length_append, List.length_cons, List.length_nil]
    omega

theorem pageMaterialize_dedupInv (cfg : Cfg)
    (hmd : cfg.convert_to_markdown = true → ∀ s, ∃ t, cfg.md s = Except.ok t) :
    ∀ (u : Url) (rt : Str) (hsh : Str) (page : Page) (st : St),
      hsh ∉ st.content_hashes → dedupInv st →
      dedupInv (pageMaterialize cfg u rt hsh page st) := by
  intro u rt hsh page st hn h
  unfold pageMaterialize
  dsimp only
  by_cases hm : cfg.convert_to_markdown = true
  · rw [if_pos hm]
    obtain ⟨t, ht⟩ := hmd hm
      (if cfg.convert_to_absolute_url then cfg.srcrepl rt (pageHtml cfg u page)
       else pageHtml cfg u page)
    rw [ht]
    exact combined_mat_dedupInv _ _ _ _ _ _ hn h
  · rw [if_neg hm]
    exact combined_mat_dedupInv _ _ _ _ _ _ hn h

/-- C1: in every crawl run (with a markdown converter that does not
throw, when conversion is enabled), the fingerprint table holds exactly
the materialized fingerprints; no fingerprint is materialized twice; any
fingerprint that was ever checked has exactly one materialization —
hence exactly one page record and exactly one page write, since records
and writes are in lockstep with materializations — every check beyond
the first for the same fingerprint was skipped as a duplicate, and every
duplicate-skipped target was marked visited without any record or
write.  Two targets with byte-identical rendered (possibly sliced)
markup have equal fingerprints, so exactly one of them materializes. -/
theorem c1_dedup_exactly_once (cfg : Cfg) (fuel : Nat) (seeds : List Url)
    (hmd : cfg.convert_to_markdown = true → ∀ s, ∃ t, cfg.md s = Except.ok t) :
    (crawlRun cfg fuel seeds).content_hashes = (crawlRun cfg fuel seeds).mats ∧
    (crawlRun cfg fuel seeds).mats.Nodup ∧
    (∀ h ∈ (crawlRun cfg fuel seeds).checks,
      countEq h (crawlRun cfg fuel seeds).mats = 1) ∧
    (crawlRun cfg fuel seeds).checks.length =
      (crawlRun cfg fuel seeds).mats.length + (crawlRun cfg fuel seeds).dups.length ∧
    (crawlRun cfg fuel seeds).pageRecs = (crawlRun cfg fuel seeds).mats ∧
    (crawlRun cfg fuel seeds).pageWrites = (crawlRun cfg fuel seeds).mats ∧
    (∀ u ∈ (crawlRun cfg fuel seeds).dups,
      geturl u ∈ (crawlRun cfg fuel seeds).scraped_urls) := by
  have hrun : dedupInv (crawlRun cfg fuel seeds) := by
    apply scrapeSites_pres cfg dedupInv
    · intro u st h
      obtain ⟨k1, k2, k3, k4, k5, k6, k7, k8, _⟩ := navigate_keeps cfg u st
      unfold dedupInv
      rw [k2, k3, k4, k5, k6, k7, k8]
      exact h
    · exact fun s st h => stMark_dedupInv s st h
    · exact fun _ _ h => h
    · exact fun _ _ _ _ _ _ h => h
    · exact fun u hsh st hmem h => stDup_dedupInv u hsh st hmem h
    · exact pageMaterialize_dedupInv cfg hmd
    · exact ⟨rfl, List.nodup_nil, fun x hx => absurd hx (by simp [initSt]),
        rfl, rfl, rfl, fun u hu => absurd hu (by simp [initSt])⟩
  obtain ⟨h1, h2, h3, h4, h5, h6, h7⟩ := hrun
  exact ⟨h1, h2, fun h hh => countEq_eq_one h2 (h3 h hh), h4, h5, h6, h7⟩

/-- Witness for C1 at the concrete single-page configuration. -/
theorem c1_dedup_exactly_once_witness :
    (crawlRun onePageCfg 2 [seedA]).content_hashes = (crawlRun onePageCfg 2 [seedA]).mats ∧
    (crawlRun onePageCfg 2 [seedA]).mats.Nodup ∧
    (∀ h ∈ (crawlRun onePageCfg 2 [seedA]).checks,
      countEq h (crawlRun onePageCfg 2 [seedA]).mats = 1) ∧
    (crawlRun onePageCfg 2 [seedA]).checks.length =
      (crawlRun onePageCfg 2 [seedA]).mats.length +
        (crawlRun onePageCfg 2 [seedA]).dups.length ∧
    (crawlRun onePageCfg 2 [seedA]).pageRecs = (crawlRun onePageCfg 2 [seedA]).mats ∧
    (crawlRun onePageCfg 2 [seedA]).pageWrites = (crawlRun onePageCfg 2 [seedA]).mats ∧
    (∀ u ∈ (crawlRun onePageCfg 2 [seedA]).dups,
      geturl u ∈ (crawlRun onePageCfg 2 [seedA]).scraped_urls) :=
  c1_dedup_exactly_once onePageCfg 2 [seedA] (fun _ s => ⟨s, rfl⟩)

/-! ### C10 — binary resources -/

/-- C10: for a non-page target (extension neither image nor page-like),
the visit performs exactly one plain HTTP fetch of the fragment-free
URL; a file is written and a record appended only when the fetch returns
a 2xx status; on any other status or on a fetch exception both the
writes and the metadata list are exactly as before the visit (no partial
record, no file, no retry), and the visit returns normally. -/
theorem c10_binary_fetch (cfg : Cfg) (fuel : Nat) (urlen : Url) (rooturl : Str) (st : St)
    (hskip : (cfg.skip_patterns.any (fun p => containsSub (geturl urlen) p)) = false)
    (himg : fileExt urlen ∉ imageExts)
    (hext : finalExt cfg urlen ∉ [".html".toList, ".md".toList]) :
    (scrapeSite cfg (fuel + 1) urlen rooturl st).fetches =
      st.fetches ++ [geturl (stripFrag urlen)] ∧
    ((∃ sc, cfg.fetch (geturl (stripFrag urlen)) = Except.ok sc ∧
        200 ≤ sc.1 ∧ sc.1 ≤ 299 ∧
        (scrapeSite cfg (fuel + 1) urlen rooturl st).writes =
          st.writes ++ [(cfg.scraped_dir ++ '/' :: outName cfg urlen, sc.2)] ∧
        (scrapeSite cfg (fuel + 1) urlen rooturl st).metadata =
          st.metadata ++ [binRecord urlen (outName cfg urlen) (docType urlen)]) ∨
      ((scrapeSite cfg (fuel + 1) urlen rooturl st).writes = st.writes ∧
        (scrapeSite cfg (fuel + 1) urlen rooturl st).metadata = st.metadata ∧
        ∀ sc, cfg.fetch (geturl (stripFrag urlen)) = Except.ok sc →
          ¬(200 ≤ sc.1 ∧ sc.1 ≤ 299))) := by
  obtain ⟨k1, _, _, _, _, _, _, _, k9, _, _, k12⟩ := navigate_keeps cfg urlen st
  have hstep : scrapeSite cfg (fuel + 1) urlen rooturl st =
      binaryVisit cfg urlen (navigate cfg urlen st) := by
    rw [scrapeSite]
    rw [if_neg (by simp [hskip])]
    dsimp only
    rw [if_neg himg, if_pos hext]
  rw [hstep]
  unfold binaryVisit
  cases hf : cfg.fetch (geturl (stripFrag urlen)) with
  | error e =>
      refine ⟨by simp [stFetch, k12], Or.inr ⟨by simp [stFetch, k9], by simp [stFetch, k1], ?_⟩⟩
      intro sc hsc
      exact Except.noConfusion hsc
  | ok sc =>
      dsimp only
      by_cases h2 : 200 ≤ sc.1 ∧ sc.1 ≤ 299
      · rw [if_pos h2]
        refine ⟨by simp [stBinApp, stFetch, k12], Or.inl ⟨sc, rfl, h2.1, h2.2, ?_, ?_⟩⟩
        · simp [stBinApp, stFetch, k9]
        · simp [stBinApp, stFetch, k1]
      · rw [if_neg h2]
        refine ⟨by simp [stFetch, k12], Or.inr ⟨by simp [stFetch, k9], by simp [stFetch, k1], ?_⟩⟩
        intro sc' hsc'
        injection hsc' with h
        subst h
        exact h2

/-- Witness for C10 at a concrete configuration: a `.pdf` target whose
fetch returns status 200. -/
theorem c10_binary_fetch_witness :
    (scrapeSite onePageCfg 1 ⟨"https".toList, "h".toList, "/f.pdf".toList, [], []⟩
        (rootUrlOf seedA) initSt).fetches =
      initSt.fetches ++ [geturl (stripFrag ⟨"https".toList, "h".toList, "/f.pdf".toList, [], []⟩)] ∧
    ((∃ sc, onePageCfg.fetch (geturl (stripFrag ⟨"https".toList, "h".toList, "/f.pdf".toList, [], []⟩)) = Except.ok sc ∧
        200 ≤ sc.1 ∧ sc.1 ≤ 299 ∧
        (scrapeSite onePageCfg 1 ⟨"https".toList, "h".toList, "/f.pdf".toList, [], []⟩
            (rootUrlOf seedA) initSt).writes =
          initSt.writes ++ [(onePageCfg.scraped_dir ++ '/' ::
            outName onePageCfg ⟨"https".toList, "h".toList, "/f.pdf".toList, [], []⟩, sc.2)] ∧
        (scrapeSite onePageCfg 1 ⟨"https".toList, "h".toList, "/f.pdf".toList, [], []⟩
            (rootUrlOf seedA) initSt).metadata =
          initSt.metadata ++ [binRecord ⟨"https".toList, "h".toList, "/f.pdf".toList, [], []⟩
            (outName onePageCfg ⟨"https".toList, "h".toList, "/f.pdf".toList, [], []⟩)
            (docType ⟨"https".toList, "h".toList, "/f.pdf".toList, [], []⟩)]) ∨
      ((scrapeSite onePageCfg 1 ⟨"https".toList, "h".toList, "/f.pdf".toList, [], []⟩
          (rootUrlOf seedA) initSt).writes = initSt.writes ∧
        (scrapeSite onePageCfg 1 ⟨"https".toList, "h".toList, "/f.pdf".toList, [], []⟩
            (rootUrlOf seedA) initSt).metadata = initSt.metadata ∧
        ∀ sc, onePageCfg.fetch (geturl (stripFrag ⟨"https".toList, "h".toList, "/f.pdf".toList, [], []⟩)) = Except.ok sc →
          ¬(200 ≤ sc.1 ∧ sc.1 ≤ 299))) :=
  c10_binary_fetch onePageCfg 0 ⟨"https".toList, "h".toList, "/f.pdf".toList, [], []⟩
    (rootUrlOf seedA) initSt (by decide) (by decide) (by decide)

/-! ### C7 — crawl scope -/

/-- A target is in scope of a root iff its fragment-free URL starts with
the root string (source lines 935-938: `if not
href_no_fragment.startswith(rooturl): continue`). -/
def inScope (root : Str) (v : Url) : Prop :=
  beginsWith (geturl (stripFrag v)) root = true

/-- Every navigated, written or recorded target is the seed itself or in
scope of the crawl root. -/
def scopeInv (seed : Url) (root : Str) (st : St) : Prop :=
  (∀ v ∈ st.navs, v = seed ∨ inScope root v) ∧
  (∀ v ∈ st.writeUrls, v = seed ∨ inScope root v) ∧
  (∀ v ∈ st.recUrls, v = seed ∨ inScope root v)

theorem navigate_navs (cfg : Cfg) (u : Url) (st : St) :
    (navigate cfg u st).navs = st.navs ++ [u] := by
  unfold navigate authenticate
  repeat' split
  all_goals simp

theorem navigate_scope {seed : Url} {root : Str} (cfg : Cfg) (u : Url) (st : St)
    (hu : u = seed ∨ inScope root u) (h : scopeInv seed root st) :
    scopeInv seed root (navigate cfg u st) := by
  obtain ⟨h1, h2, h3⟩ := h
  obtain ⟨_, _, _, _, _, _, _, _, _, krec, kw, _⟩ := navigate_keeps cfg u st
  refine ⟨?_, ?_, ?_⟩
  · rw [navigate_navs]
    intro v hv
    rcases List.mem_append.mp hv with hv | hv
    · exact h1 v hv
    · have hvu : v = u := List.mem_singleton.mp hv
      subst hvu
      exact hu
  · rw [kw]; exact h2
  · rw [krec]; exact h3

theorem stBinApp_scope {seed : Url} {root : Str} (u : Url) (pfn fn ct dt : Str) (st : St)
    (hu : u = seed ∨ inScope root u) (h : scopeInv seed root st) :
    scopeInv seed root (stBinApp u pfn fn ct dt st) := by
  obtain ⟨h1, h2, h3⟩ := h
  refine ⟨h1, ?_, ?_⟩
  all_goals
    intro v hv
    rcases List.mem_append.mp hv with hv | hv
    · first | exact h2 v hv | exact h3 v hv
    · have hvu : v = u := List.mem_singleton.mp hv
      subst hvu
      exact hu

theorem stPW_scope {seed : Url} {root : Str} (fn ct : Str) (u : Url) (hsh : Str) (st : St)
    (hu : u = seed ∨ inScope root u) (h : scopeInv seed root st) :
    scopeInv seed root (stPW fn ct u hsh st) := by
  obtain ⟨h1, h2, h3⟩ := h
  refine ⟨h1, ?_, h3⟩
  intro v hv
  rcases List.mem_append.mp hv with hv | hv
  · exact h2 v hv
  · have hvu : v = u := List.mem_singleton.mp hv
    subst hvu
    exact hu

theorem stPR_scope {seed : Url} {root : Str} (r : MRecord) (u : Url) (hsh : Str) (st : St)
    (hu : u = seed ∨ inScope root u) (h : scopeInv seed root st) :
    scopeInv seed root (stPR r u hsh st) := by
  obtain ⟨h1, h2, h3⟩ := h
  refine ⟨h1, h2, ?_⟩
  intro v hv
  rcases List.mem_append.mp hv with hv | hv
  · exact h3 v hv
  · have hvu : v = u := List.mem_singleton.mp hv
    subst hvu
    exact hu

theorem binaryVisit_scope {seed : Url} {root : Str} (cfg : Cfg) (u : Url) (st : St)
    (hu : u = seed ∨ inScope root u) (h : scopeInv seed root st) :
    scopeInv seed root (binaryVisit cfg u st) := by
  unfold binaryVisit
  split
  · exact h
  · split_ifs
    · exact stBinApp_scope u _ _ _ _ _ hu h
    · exact h

theorem pageMaterialize_scope {seed : Url} {root : Str} (cfg : Cfg) (u : Url)
    (rt hsh : Str) (page : Page) (st : St)
    (hu : u = seed ∨ inScope root u) (h : scopeInv seed root st) :
    scopeInv seed root (pageMaterialize cfg u rt hsh page st) := by
  unfold pageMaterialize
  dsimp only
  apply stPR_scope _ _ _ _ hu
  split_ifs
  all_goals
    first
    | exact stPW_scope _ _ _ _ _ hu h
    | (split
       · exact stPW_scope _ _ _ _ _ hu h
       · exact h)

theorem linkLoop_scope {P : St → Prop} {recurse : Url → St → St} {cfg : Cfg}
    {urlenNF : Url} {rooturl : Str}
    (hrec : ∀ v st, beginsWith (geturl (stripFrag v)) rooturl = true → P st → P (recurse v st))
    (hmark : ∀ s st, P st → P (stMark s st)) :
    ∀ (hrefs : List (Option Url)) (st : St), P st →
      P (linkLoop recurse cfg urlenNF rooturl hrefs st)
  | [], _, h => h
  | none :: rest, st, h => linkLoop_scope hrec hmark rest st h
  | some href0 :: rest, st, h => by
      rw [linkLoop]
      dsimp only
      split_ifs
      all_goals
        first
        | exact linkLoop_scope hrec hmark rest _ h
        | exact linkLoop_scope hrec hmark rest _ (hmark _ st h)
        | exact linkLoop_scope hrec hmark rest _
            (hrec _ _ (not_not.mp (by assumption)) (hmark _ st h))
        | exact linkLoop_scope hrec hmark rest _
            (hrec _ _ (by assumption) (hmark _ st h))

theorem pageVisit_scope {seed : Url} {root : Str} (cfg : Cfg) (recurse : Url → St → St)
    (u : Url) (st : St)
    (hrec : ∀ v s, inScope root v → scopeInv seed root s → scopeInv seed root (recurse v s))
    (hu : u = seed ∨ inScope root u) (h : scopeInv seed root st) :
    scopeInv seed root (pageVisit cfg recurse u root st) := by
  unfold pageVisit
  dsimp only
  split_ifs with hmem hone
  · exact h
  · exact pageMaterialize_scope cfg u root _ _ st hu h
  · exact linkLoop_scope (fun v s hv hs => hrec v s hv hs) (fun _ _ hh => hh) _ _
      (pageMaterialize_scope cfg u root _ _ st hu h)

theorem scrapeSite_scope (cfg : Cfg) (seed : Url) (root : Str) :
    ∀ (fuel : Nat) (u : Url) (st : St), (u = seed ∨ inScope root u) →
      scopeInv seed root st → scopeInv seed root (scrapeSite cfg fuel u root st)
  | 0, _, _, _, h => h
  | fuel + 1, u, st, hu, h => by
      rw [scrapeSite]
      dsimp only
      split_ifs
      all_goals
        first
        | exact h
        | exact navigate_scope cfg u st hu h
        | exact binaryVisit_scope cfg u _ hu (navigate_scope cfg u st hu h)
        | exact pageVisit_scope cfg _ u _
            (fun v s hv hs => scrapeSite_scope cfg seed root fuel v s (Or.inr hv) hs)
            hu (navigate_scope cfg u st hu h)

/-- C7: in a crawl of a single seed, a target other than the seed whose
fragment-free URL does not start with the seed's scope root
`scheme://host/` is never navigated to or rendered, never written to
disk, and never appended to the metadata list. -/
theorem c7_out_of_scope_untouched (cfg : Cfg) (fuel : Nat) (seed v : Url)
    (hv : v ≠ seed)
    (hout : beginsWith (geturl (stripFrag v)) (rootUrlOf seed) = false) :
    v ∉ (scrapeSites cfg fuel [seed] initSt).navs ∧
    v ∉ (scrapeSites cfg fuel [seed] initSt).writeUrls ∧
    v ∉ (scrapeSites cfg fuel [seed] initSt).recUrls := by
  have hrun : scopeInv seed (rootUrlOf seed) (scrapeSites cfg fuel [seed] initSt) := by
    have hone : scrapeSites cfg fuel [seed] initSt
        = scrapeSite cfg fuel seed (rootUrlOf seed) initSt := rfl
    rw [hone]
    exact scrapeSite_scope cfg seed (rootUrlOf seed) fuel seed initSt (Or.inl rfl)
      ⟨fun w hw => absurd hw (by simp [initSt]), fun w hw => absurd hw (by simp [initSt]),
       fun w hw => absurd hw (by simp [initSt])⟩
  obtain ⟨h1, h2, h3⟩ := hrun
  refine ⟨fun hm => ?_, fun hm => ?_, fun hm => ?_⟩
  · rcases h1 v hm with rfl | hsc
    · exact hv rfl
    · have hsc' : beginsWith (geturl (stripFrag v)) (rootUrlOf seed) = true := hsc
      rw [hout] at hsc'
      exact absurd hsc' Bool.false_ne_true
  · rcases h2 v hm with rfl | hsc
    · exact hv rfl
    · have hsc' : beginsWith (geturl (stripFrag v)) (rootUrlOf seed) = true := hsc
      rw [hout] at hsc'
      exact absurd hsc' Bool.false_ne_true
  · rcases h3 v hm with rfl | hsc
    · exact hv rfl
    · have hsc' : beginsWith (geturl (stripFrag v)) (rootUrlOf seed) = true := hsc
      rw [hout] at hsc'
      exact absurd hsc' Bool.false_ne_true

/-- An off-host target used to witness the scope theorem. -/
def outsiderUrl : Url := ⟨"https".toList, "elsewhere.example".toList, "/".toList, [], []⟩

/-- Witness for C7 at a concrete configuration. -/
theorem c7_out_of_scope_untouched_witness :
    outsiderUrl ≠ seedA ∧
    beginsWith (geturl (stripFrag outsiderUrl)) (rootUrlOf seedA) = false ∧
    (outsiderUrl ∉ (scrapeSites onePageCfg 2 [seedA] initSt).navs ∧
     outsiderUrl ∉ (scrapeSites onePageCfg 2 [seedA] initSt).writeUrls ∧
     outsiderUrl ∉ (scrapeSites onePageCfg 2 [seedA] initSt).recUrls) :=
  ⟨by decide, by decide,
   c7_out_of_scope_untouched onePageCfg 2 seedA outsiderUrl (by decide) (by decide)⟩

/-! ### C2 — queueing at most once -/

theorem stripFrag_idem (u : Url) : stripFrag (stripFrag u) = stripFrag u := rfl

def countUrl (v : Url) (l : List Url) : Nat := (l.filter (fun x => x = v)).length

theorem countUrl_append (v : Url) (l1 l2 : List Url) :
    countUrl v (l1 ++ l2) = countUrl v l1 + countUrl v l2 := by
  simp [countUrl, List.filter_append]

theorem countUrl_single (v u : Url) : countUrl v [u] = if u = v then 1 else 0 := by
  by_cases h : u = v
  · simp [countUrl, h]
  · simp [countUrl, h]

/-- A target is navigated at most once, and a navigated target has both
its full URL and its fragment-free URL marked visited. -/
def seenInv (v : Url) (st : St) : Prop :=
  countUrl v st.navs ≤ 1 ∧
  (1 ≤ countUrl v st.navs →
    geturl v ∈ st.scraped_urls ∧ geturl (stripFrag v) ∈ st.scraped_urls)

theorem seenInv_grow {v : Url} {st st' : St} (hn : st'.navs = st.navs)
    (hs : ∀ x ∈ st.scraped_urls, x ∈ st'.scraped_urls) (h : seenInv v st) :
    seenInv v st' := by
  obtain ⟨h1, h2⟩ := h
  refine ⟨by rw [hn]; exact h1, fun hc => ?_⟩
  rw [hn] at hc
  exact ⟨hs _ (h2 hc).1, hs _ (h2 hc).2⟩

theorem seenInv_mark (v : Url) (s : List Str) (st : St) (h : seenInv v st) :
    seenInv v (stMark s st) := by
  obtain ⟨h1, h2⟩ := h
  exact ⟨h1, fun hc => ⟨List.mem_append.mpr (Or.inl (h2 hc).1),
    List.mem_append.mpr (Or.inl (h2 hc).2)⟩⟩

theorem seenInv_dup (v u : Url) (hsh : Str) (st : St) (h : seenInv v st) :
    seenInv v (stDup u hsh st) := by
  obtain ⟨h1, h2⟩ := h
  exact ⟨h1, fun hc => ⟨List.mem_append.mpr (Or.inl (h2 hc).1),
    List.mem_append.mpr (Or.inl (h2 hc).2)⟩⟩

theorem navigate_seenInv {v : Url} (cfg : Cfg) (u : Url) (st : St) (h : seenInv v st)
    (hu : u = v → countUrl v st.navs = 0 ∧ geturl v ∈ st.scraped_urls ∧
      geturl (stripFrag v) ∈ st.scraped_urls) :
    seenInv v (navigate cfg u st) := by
  obtain ⟨h1, h2⟩ := h
  obtain ⟨_, ksc, _⟩ := navigate_keeps cfg u st
  constructor
  · show countUrl v (navigate cfg u st).navs ≤ 1
    rw [navigate_navs, countUrl_append, countUrl_single]
    by_cases huv : u = v
    · rw [if_pos huv, (hu huv).1]
    · rw [if_neg huv]
      simpa using h1
  · intro hc
    rw [ksc]
    by_cases huv : u = v
    · exact ⟨(hu huv).2.1, (hu huv).2.2⟩
    · apply h2
      rw [navigate_navs, countUrl_append, countUrl_single, if_neg huv] at hc
      simpa using hc

theorem pageMaterialize_navs (cfg : Cfg) (u : Url) (rt hsh : Str) (page : Page) (st : St) :
    (pageMaterialize cfg u rt hsh page st).navs = st.navs := by
  unfold pageMaterialize
  dsimp only
  split_ifs <;> first | rfl | (split <;> rfl)

theorem pageMaterialize_scraped (cfg : Cfg) (u : Url) (rt hsh : Str) (page : Page) (st : St) :
    (pageMaterialize cfg u rt hsh page st).scraped_urls = st.scraped_urls := by
  unfold pageMaterialize
  dsimp only
  split_ifs <;> first | rfl | (split <;> rfl)

theorem binaryVisit_navs (cfg : Cfg) (u : Url) (st : St) :
    (binaryVisit cfg u st).navs = st.navs := by
  unfold binaryVisit
  split
  · rfl
  · split_ifs <;> rfl

theorem binaryVisit_scraped (cfg : Cfg) (u : Url) (st : St) :
    (binaryVisit cfg u st).scraped_urls = st.scraped_urls := by
  unfold binaryVisit
  split
  · rfl
  · split_ifs <;> rfl

theorem linkLoop_seenInv {v : Url} {recurse : Url → St → St} {cfg : Cfg}
    {urlenNF : Url} {rooturl : Str}
    (hrec : ∀ w st', seenInv v st' →
      (w = v → countUrl v st'.navs = 0 ∧ geturl v ∈ st'.scraped_urls ∧
        geturl (stripFrag v) ∈ st'.scraped_urls) →
      seenInv v (recurse w st')) :
    ∀ (hrefs : List (Option Url)) (st : St), seenInv v st →
      seenInv v (linkLoop recurse cfg urlenNF rooturl hrefs st)
  | [], _, h => h
  | none :: rest, st, h => linkLoop_seenInv hrec rest st h
  | some href0 :: rest, st, h => by
      rw [linkLoop]
      dsimp only
      split_ifs
      all_goals
        first
        | exact linkLoop_seenInv hrec rest _ h
        | exact linkLoop_seenInv hrec rest _ (seenInv_mark _ _ _ h)
        | (refine linkLoop_seenInv hrec rest _
            (hrec _ _ (seenInv_mark _ _ _ h) ?_)
           intro hwv
           subst hwv
           refine ⟨?_, by simp [stMark, stripFrag_idem], by simp [stMark, stripFrag_idem]⟩
           by_contra h0
           exact absurd (h.2 (Nat.one_le_iff_ne_zero.mpr h0)).2
             (by first | assumption | (simp only [stripFrag_idem]; assumption)))
        | (refine linkLoop_seenInv hrec rest _
            (hrec _ _ (seenInv_mark _ _ _ h) ?_)
           intro hwv
           subst hwv
           refine ⟨?_, by simp [stMark], ?_⟩
           · by_contra h0
             exact absurd (h.2 (Nat.one_le_iff_ne_zero.mpr h0)).1 (by assumption)
           · simp only [stMark, List.mem_append]
             exact Or.inl (by assumption))

theorem pageVisit_seenInv {v : Url} (cfg : Cfg) (recurse : Url → St → St) (u : Url)
    (root : Str) (st : St)
    (hrec : ∀ w st', seenInv v st' →
      (w = v → countUrl v st'.navs = 0 ∧ geturl v ∈ st'.scraped_urls ∧
        geturl (stripFrag v) ∈ st'.scraped_urls) →
      seenInv v (recurse w st'))
    (h : seenInv v st) :
    seenInv v (pageVisit cfg recurse u root st) := by
  unfold pageVisit
  dsimp only
  split_ifs with hmem hone
  · exact seenInv_dup _ _ _ _ h
  · exact seenInv_grow (pageMaterialize_navs _ _ _ _ _ _)
      (fun x hx => by rw [pageMaterialize_scraped]; exact hx) h
  · exact linkLoop_seenInv hrec _ _
      (seenInv_grow (pageMaterialize_navs _ _ _ _ _ _)
        (fun x hx => by rw [pageMaterialize_scraped]; exact hx) h)

theorem scrapeSite_seenInv (cfg : Cfg) (v : Url) (root : Str) :
    ∀ (fuel : Nat) (u : Url) (st : St),
      seenInv v st →
      (u = v → countUrl v st.navs = 0 ∧ geturl v ∈ st.scraped_urls ∧
        geturl (stripFrag v) ∈ st.scraped_urls) →
      seenInv v (scrapeSite cfg fuel u root st)
  | 0, _, _, h, _ => h
  | fuel + 1, u, st, h, hu => by
      rw [scrapeSite]
      dsimp only
      split_ifs
      all_goals
        first
        | exact h
        | exact navigate_seenInv cfg u st h hu
        | exact seenInv_grow (binaryVisit_navs cfg u _)
            (fun x hx => by rw [binaryVisit_scraped]; exact hx)
            (navigate_seenInv cfg u st h hu)
        | exact pageVisit_seenInv cfg _ u root _
            (fun w s hw hpre => scrapeSite_seenInv cfg v root fuel w s hw hpre)
            (navigate_seenInv cfg u st h hu)

theorem scrapeSites_seenInv (cfg : Cfg) (v : Url) :
    ∀ (fuel : Nat) (seeds : List Url) (st : St), seenInv v st →
      (∀ u ∈ seeds, u ≠ v) → seenInv v (scrapeSites cfg fuel seeds st)
  | _, [], _, h, _ => h
  | fuel, u :: rest, st, h, hs =>
      scrapeSites_seenInv cfg v fuel rest _
        (scrapeSite_seenInv cfg v (rootUrlOf u) fuel u st h
          (fun hc => absurd hc (hs u (List.mem_cons_self u rest))))
        (fun w hw => hs w (List.mem_cons_of_mem u hw))

/-- C2 counterexample: a seed URL is never pre-marked as visited, so
when the seed's own page links back to the seed it is rediscovered,
queued and navigated a second time: in a one-page site whose page links
to itself, the seed appears twice in the navigation sequence. -/
theorem c2_counterexample :
    countUrl (⟨"https".toList, "h".toList, "/a.html".toList, [], []⟩ : Url)
      (scrapeSites
        { skip_patterns := [], one_page_only := false, convert_to_absolute_url := false,
          convert_to_markdown := false, extract_anchors := false,
          scraped_dir := "d".toList,
          login_url := none, username := none, password := none, totp_secret := none,
          world := fun _ =>
            ⟨"AAA".toList, [], [], [], .nil,
              [some ⟨"https".toList, "h".toList, "/a.html".toList, [], []⟩]⟩,
          fetch := fun _ => Except.error [], md := fun s => Except.ok s,
          srcrepl := fun _ c => c, hash := fun s => s, du := fun _ => none,
          authOutcome := false }
        3 [⟨"https".toList, "h".toList, "/a.html".toList, [], []⟩] initSt).navs = 2 := by
  decide

/-- C2 (amended): every target other than a seed URL is navigated to and
rendered at most once per crawl run; since targets carry their fragment,
this covers each URL+fragment anchor variant independently.  (The seed
itself can be navigated twice — see the counterexample.) -/
theorem c2_nonseed_navigated_at_most_once (cfg : Cfg) (fuel : Nat) (seeds : List Url)
    (v : Url) (hv : v ∉ seeds) :
    countUrl v (scrapeSites cfg fuel seeds initSt).navs ≤ 1 := by
  have h := scrapeSites_seenInv cfg v fuel seeds initSt
    ⟨by simp [initSt, countUrl], by simp [initSt, countUrl]⟩
    (fun u hu hc => hv (hc ▸ hu))
  exact h.1

/-- Witness for C2 (amended) at a concrete configuration. -/
theorem c2_nonseed_navigated_at_most_once_witness :
    (⟨"https".toList, "h".toList, "/b.html".toList, [], []⟩ : Url) ∉ [seedA] ∧
    countUrl ⟨"https".toList, "h".toList, "/b.html".toList, [], []⟩
      (scrapeSites onePageCfg 2 [seedA] initSt).navs ≤ 1 :=
  ⟨by decide,
   c2_nonseed_navigated_at_most_once onePageCfg 2 [seedA] _ (by decide)⟩
